import Mathlib

/-!
# goWiki: a shallow embedding of `wiki.go`

The wiki server of `wiki.go` is embedded as pure Lean functions.

* Text (Go `string` and `[]byte`) is a list of characters. Both regular
  expressions of the program mention ASCII characters only, so what they
  accept does not depend on how the remaining characters are encoded.
* The two `regexp.MustCompile` patterns are given as syntax trees and run by a
  backtracking matcher with the leftmost-first priorities of Go's `regexp`.
* The file system and the `http.ResponseWriter` are explicit state: a handler
  maps a `World` to an `Outcome`, which is either a normal return or a panic.
-/

namespace GoWiki

/-- Go `string` / `[]byte`. -/
abbrev Text := List Char

/-! ## Regular expressions (package `regexp`) -/

/-- Syntax of the regular expressions used by the program. -/
inductive Regex where
  /-- a literal string -/
  | lit (s : Text)
  /-- a character class given by inclusive ranges, e.g. `[a-zA-Z0-9]` -/
  | cls (ranges : List (Char × Char))
  /-- `^`: beginning of text -/
  | bot
  /-- `$`: end of text -/
  | eot
  /-- concatenation -/
  | seq (a b : Regex)
  /-- alternation `a|b`, preferring `a` -/
  | alt (a b : Regex)
  /-- greedy repetition `a+` -/
  | plus (a : Regex)
  /-- capturing group number `i` -/
  | group (i : Nat) (a : Regex)

/-- A thread of the matcher: the offset reached, the text still unread and the
capture groups closed so far (most recent first). -/
structure MState where
  pos : Nat
  rest : Text
  caps : List (Nat × Text)
deriving DecidableEq, Repr

/-- Membership of a character in a class. -/
def inClass (ranges : List (Char × Char)) (c : Char) : Bool :=
  ranges.any (fun r => decide (r.1 ≤ c) && decide (c ≤ r.2))

/-- Greedy iteration of `step`: after one round, another round is preferred
to stopping. A round that reads nothing is not repeated. -/
def plusAux (step : MState → List MState) : Nat → MState → List MState
  | 0, _ => []
  | fuel + 1, st =>
    (step st).flatMap (fun st1 =>
      (if st1.rest.length < st.rest.length then plusAux step fuel st1 else []) ++ [st1])

/-- All ways of matching `re` at the thread `st`, in order of priority. -/
def matchRe : Regex → MState → List MState
  | .lit s, st =>
    if s.isPrefixOf st.rest then [⟨st.pos + s.length, st.rest.drop s.length, st.caps⟩] else []
  | .cls ranges, st =>
    match st.rest with
    | [] => []
    | c :: cs => if inClass ranges c then [⟨st.pos + 1, cs, st.caps⟩] else []
  | .bot, st => if st.pos = 0 then [st] else []
  | .eot, st => if st.rest = [] then [st] else []
  | .seq a b, st => (matchRe a st).flatMap (matchRe b)
  | .alt a b, st => matchRe a st ++ matchRe b st
  | .plus a, st => plusAux (matchRe a) (st.rest.length + 1) st
  | .group i a, st =>
    (matchRe a st).map (fun st1 =>
      ⟨st1.pos, st1.rest, (i, st.rest.take (st1.pos - st.pos)) :: st1.caps⟩)

/-- Leftmost match of `re` in the text `s` that starts at offset `pos`: the
start offset of the match and the thread that completed it. -/
def search (re : Regex) : Nat → Text → Option (Nat × MState)
  | pos, [] => (matchRe re ⟨pos, [], []⟩).head?.map (fun st => (pos, st))
  | pos, c :: cs =>
    match (matchRe re ⟨pos, c :: cs, []⟩).head? with
    | some st => some (pos, st)
    | none => search re (pos + 1) cs

/-- Text of capture group `i` (empty when the group took no part). -/
def capture (caps : List (Nat × Text)) (i : Nat) : Text :=
  match caps.find? (fun p => p.1 == i) with
  | some p => p.2
  | none => []

/-- `(*Regexp).FindStringSubmatch` for an expression with `n` groups: `nil`
(`none`) when there is no match, else the match followed by the groups. -/
def findStringSubmatch (re : Regex) (n : Nat) (s : Text) : Option (List Text) :=
  match search re 0 s with
  | none => none
  | some (start, st) =>
    some (((s.drop start).take (st.pos - start)) ::
      (List.range n).map (fun i => capture st.caps (i + 1)))

/-- The class `[a-zA-Z0-9]`. -/
def alnum : List (Char × Char) := [('a', 'z'), ('A', 'Z'), ('0', '9')]

/-- The pattern `^/(edit|save|view)/([a-zA-Z0-9]+)$`. -/
def validPath : Regex :=
  .seq .bot (.seq (.lit "/".toList)
    (.seq (.group 1 (.alt (.alt (.lit "edit".toList) (.lit "save".toList)) (.lit "view".toList)))
      (.seq (.lit "/".toList) (.seq (.group 2 (.plus (.cls alnum))) .eot))))

/-- The pattern `\[[a-zA-Z0-9]+\]`. -/
def linksPattern : Regex :=
  .seq (.lit "[".toList) (.seq (.plus (.cls alnum)) (.lit "]".toList))

/-- `(*Regexp).ReplaceAllFunc`, the loop of `regexp.replaceAll`: `searchPos` is
where the next search starts, `rest` the text from there on, and `gap` the
text between `lastMatchEnd` and `searchPos`. Every round moves `searchPos`
forward, so the loop ends; the first argument bounds the number of rounds.
The result is `none` when the callback panics, and when the bound is too
small. -/
def replaceAllLoop (re : Regex) (repl : Text → Option Text) :
    Nat → Nat → Nat → Text → Text → Option Text
  | 0, _, _, _, _ => none
  | fuel + 1, lastMatchEnd, searchPos, gap, rest =>
    match search re searchPos rest with
    | none => some (gap ++ rest)
    | some (a0, st) =>
      let a1 := st.pos
      let before := gap ++ rest.take (a0 - searchPos)
      let out : Option Text :=
        if a1 > lastMatchEnd ∨ a0 = 0 then repl ((rest.drop (a0 - searchPos)).take (a1 - a0))
        else some []
      let width := if rest = [] then 0 else 1
      let next :=
        if searchPos + width > a1 then searchPos + width
        else if searchPos + 1 > a1 then searchPos + 1
        else a1
      let tail : Option Text :=
        if next ≤ searchPos + rest.length then
          replaceAllLoop re repl fuel a1 next
            ((rest.drop (a1 - searchPos)).take (next - a1)) (rest.drop (next - searchPos))
        else some (rest.drop (a1 - searchPos))
      match out, tail with
      | some o, some t => some (before ++ o ++ t)
      | _, _ => none

/-- `re.ReplaceAllFunc(src, repl)`; the loop makes at most `len(src) + 1`
rounds. -/
def replaceAllFunc (re : Regex) (src : Text) (repl : Text → Option Text) : Option Text :=
  replaceAllLoop re repl (src.length + 1) 0 0 [] src

/-! ## Pages -/

/-- The `Page` struct. -/
structure Page where
  Title : Text
  Body : Text
  HTMLBody : Text
deriving DecidableEq, Repr

/-- `replaceWikiLinks`: the slice `stringSrc[1 : len(stringSrc)-1]` panics
(`none`) when the text has fewer than two characters. -/
def replaceWikiLinks (src : Text) : Option Text :=
  if src.length < 2 then none
  else
    let linkName := (src.take (src.length - 1)).drop 1
    some ("<a href='/view/".toList ++ linkName ++ "'>".toList ++ linkName ++ "</a>".toList)

/-- `(*Page).parseWiki` on a non-nil page. -/
def parseWiki (p : Page) : Option Text :=
  replaceAllFunc linksPattern p.Body replaceWikiLinks


/-! ## The file system (packages `os` and `io/ioutil`)

Only what the program touches is modelled: the directory `data` and the
regular files the program names. A file that exists can be read (the program
creates its files with mode `0600`), and a write the system refuses leaves the
files as they were. -/

/-- An `*os.PathError`. -/
structure PathError where
  op : Text
  path : Text
  err : Text
deriving DecidableEq, Repr

/-- `(*PathError).Error()`. -/
def PathError.Error (e : PathError) : Text :=
  e.op ++ " ".toList ++ e.path ++ ": ".toList ++ e.err

/-- State of the file system. -/
structure FS where
  /-- whether the directory `data` exists -/
  dataDir : Bool
  /-- whether the working directory lets `data` be created -/
  canMkdir : Bool
  /-- the error with which the system refuses to create or overwrite the file
  at a path, if it refuses -/
  denyWrite : Text → Option Text
  /-- the regular files, by path, with their content -/
  files : Text → Option Text

/-- A call into the file system. -/
inductive FsOp where
  | mkdir (name : Text)
  | writeFile (path : Text) (data : Text)
  | readFile (path : Text)
deriving DecidableEq, Repr

/-! ## The response (package `net/http`) -/

/-- A call that writes to the `http.ResponseWriter`. -/
inductive Call where
  /-- `http.NotFound(w, r)` -/
  | notFound
  /-- `http.Error(w, msg, code)` -/
  | error (msg : Text) (code : Nat)
  /-- `http.Redirect(w, r, url, code)` -/
  | redirect (url : Text) (code : Nat)
  /-- `templates.ExecuteTemplate(w, name, data)` -/
  | executeTemplate (name : Text) (data : Option Page)
deriving DecidableEq, Repr

/-- `http.StatusFound`. -/
def StatusFound : Nat := 302

/-- `http.StatusNotFound`. -/
def StatusNotFound : Nat := 404

/-- `http.StatusInternalServerError`. -/
def StatusInternalServerError : Nat := 500

/-- The status code a call sends when it is the first to write to the
response. What a template writes depends on the template, so no code is
given for it. -/
def Call.status : Call → Option Nat
  | .notFound => some StatusNotFound
  | .error _ code => some code
  | .redirect _ code => some code
  | .executeTemplate _ _ => none

/-- Status code of a response, given the calls made on its writer: the first
call decides, and a handler that writes nothing answers `200`. -/
def responseStatus : List Call → Option Nat
  | [] => some 200
  | c :: _ => c.status

/-- What a handler sees and changes: the file system, the file system calls
made and the calls made on the response writer, both oldest first. -/
structure World where
  fs : FS
  ops : List FsOp
  calls : List Call

/-- The state in which the server hands a request to a handler: no file system
call made yet and nothing written to the response. -/
def World.fresh (fs : FS) : World := ⟨fs, [], []⟩

/-- How a handler ends: it returns, or it panics. -/
inductive Outcome where
  | returned (w : World)
  | panicked (w : World)

/-- The state a handler leaves behind. -/
def Outcome.world : Outcome → World
  | .returned w => w
  | .panicked w => w

/-- The part of an `*http.Request` the program reads: `r.URL.Path` and the
parsed form. The path of a request in origin form begins with `/`. -/
structure Request where
  path : Text
  form : List (Text × Text)

/-- `(*Request).FormValue`: the first value of `key`, or the empty string. -/
def Request.FormValue (r : Request) (key : Text) : Text :=
  match r.form.find? (fun kv => kv.1 == key) with
  | some kv => kv.2
  | none => []

/-- The template set `templates`. The template files are not part of the
program text, so the set is a parameter: given a template name and the data,
the error `ExecuteTemplate` returns, if any. -/
abbrev Templates := Text → Option Page → Option Text

/-- An HTTP handler. -/
abbrev Handler := World → Request → Outcome

/-- `http.NotFound`. -/
def httpNotFound (w : World) : World :=
  { w with calls := w.calls ++ [.notFound] }

/-- `http.Error`. -/
def httpError (msg : Text) (code : Nat) (w : World) : World :=
  { w with calls := w.calls ++ [.error msg code] }

/-- `http.Redirect`. -/
def httpRedirect (url : Text) (code : Nat) (w : World) : World :=
  { w with calls := w.calls ++ [.redirect url code] }

/-- `os.Mkdir(name, perm)`; the program discards the error it returns. -/
def osMkdir (name : Text) (w : World) : World :=
  { w with
    ops := w.ops ++ [.mkdir name]
    fs := if name = "data".toList ∧ w.fs.dataDir = false ∧ w.fs.canMkdir = true then
        { w.fs with dataDir := true }
      else w.fs }

/-- `ioutil.WriteFile(path, data, perm)` for a path inside `data`. -/
def writeFile (path : Text) (data : Text) (w : World) : Option PathError × World :=
  let w1 : World := { w with ops := w.ops ++ [.writeFile path data] }
  if w.fs.dataDir = false then
    (some ⟨"open".toList, path, "no such file or directory".toList⟩, w1)
  else
    match w.fs.denyWrite path with
    | some e => (some ⟨"open".toList, path, e⟩, w1)
    | none =>
      (none, { w1 with
        fs := { w.fs with files := fun q => if q = path then some data else w.fs.files q } })

/-- `ioutil.ReadFile(path)` for a path inside `data`. -/
def readFile (path : Text) (w : World) : Except PathError Text × World :=
  let w1 : World := { w with ops := w.ops ++ [.readFile path] }
  if w.fs.dataDir = false then
    (.error ⟨"open".toList, path, "no such file or directory".toList⟩, w1)
  else
    match w.fs.files path with
    | some data => (.ok data, w1)
    | none => (.error ⟨"open".toList, path, "no such file or directory".toList⟩, w1)

/-! ## The program -/

/-- The global `templateRoot`. -/
def templateRoot : Text := "tmpl/".toList

/-- The global `pageDataRoot`. -/
def pageDataRoot : Text := "data/".toList

/-- `(*Page).save`. -/
def Page.save (p : Page) (w : World) : Option PathError × World :=
  let w1 := osMkdir "data".toList w
  let filename := p.Title ++ ".txt".toList
  writeFile (pageDataRoot ++ filename) p.Body w1

/-- `loadPage`: a page, or the error of the read (the page is then `nil`). -/
def loadPage (title : Text) (w : World) : Except PathError Page × World :=
  let filename := title ++ ".txt".toList
  match readFile (pageDataRoot ++ filename) w with
  | (.error err, w1) => (.error err, w1)
  | (.ok body, w1) => (.ok { Title := title, Body := body, HTMLBody := [] }, w1)

/-- `getTitle`. -/
def getTitle (w : World) (r : Request) : Except Text Text × World :=
  match findStringSubmatch validPath 2 r.path with
  | none => (.error "Invalid Page Title".toList, httpNotFound w)
  | some m => (.ok (m.getD 2 []), w)

/-- `renderTemplate`. The page `p` is a pointer: `none` is `nil`, and reading
`p.Body` through it panics. -/
def renderTemplate (tpl : Templates) (w : World) (tmpl : Text) (p : Option Page) : Outcome :=
  let assigned : Option (Option Page) :=
    if tmpl ≠ "edit".toList then
      match p with
      | none => none
      | some pg =>
        match parseWiki pg with
        | none => none
        | some html => some (some { pg with HTMLBody := html })
    else some p
  match assigned with
  | none => .panicked w
  | some p1 =>
    let w1 : World := { w with calls := w.calls ++ [.executeTemplate (tmpl ++ ".html".toList) p1] }
    match tpl (tmpl ++ ".html".toList) p1 with
    | none => .returned w1
    | some err => .returned (httpError err StatusInternalServerError w1)

/-- `rootHandler`. -/
def rootHandler (w : World) (_r : Request) : Outcome :=
  .returned (httpRedirect "/view/FrontPage".toList StatusFound w)

/-- `makeHandler`. -/
def makeHandler (fn : World → Request → Text → Outcome) : Handler :=
  fun w r =>
    match findStringSubmatch validPath 2 r.path with
    | none => .returned (httpNotFound w)
    | some m => fn w r (m.getD 2 [])

/-- `viewHandler`. There is no `return` after the redirect. -/
def viewHandler (tpl : Templates) (w : World) (_r : Request) (title : Text) : Outcome :=
  match loadPage title w with
  | (.error _, w1) =>
    renderTemplate tpl (httpRedirect ("/edit/".toList ++ title) StatusFound w1) "view".toList none
  | (.ok p, w1) => renderTemplate tpl w1 "view".toList (some p)

/-- `editHandler`. -/
def editHandler (tpl : Templates) (w : World) (_r : Request) (title : Text) : Outcome :=
  match loadPage title w with
  | (.error _, w1) =>
    renderTemplate tpl w1 "edit".toList (some { Title := title, Body := [], HTMLBody := [] })
  | (.ok p, w1) => renderTemplate tpl w1 "edit".toList (some p)

/-- `saveHandler`. -/
def saveHandler (w : World) (r : Request) (title : Text) : Outcome :=
  let body := r.FormValue "body".toList
  let p : Page := { Title := title, Body := body, HTMLBody := [] }
  match p.save w with
  | (some err, w1) => .returned (httpError err.Error StatusInternalServerError w1)
  | (none, w1) => .returned (httpRedirect ("/view/".toList ++ title) StatusFound w1)

/-! ## The server (`http.HandleFunc`, `http.ListenAndServe` with the default mux) -/

/-- `path.Clean` on a rooted path: empty and `.` elements are dropped, and a
`..` element drops the element before it, if there is one. -/
def pathClean (p : Text) : Text :=
  let elems := (p.splitOn '/').foldl
    (fun stack e =>
      if e = [] ∨ e = ".".toList then stack
      else if e = "..".toList then stack.dropLast
      else stack ++ [e]) []
  '/' :: ['/'].intercalate elems

/-- `cleanPath` of `net/http`. -/
def cleanPath (p : Text) : Text :=
  if p = [] then "/".toList
  else
    let p1 := if p.head? = some '/' then p else '/' :: p
    let np := pathClean p1
    if p1.getLast? = some '/' ∧ np ≠ "/".toList then
      if p1.length = np.length + 1 ∧ np.isPrefixOf p1 = true then p1 else np ++ "/".toList
    else np

/-- The entry with the longest pattern (the mux keeps its subtree patterns
sorted from longest to shortest and takes the first that fits). -/
def longest : List (Text × Handler) → Option (Text × Handler)
  | [] => none
  | b :: bs =>
    match longest bs with
    | none => some b
    | some a => if b.1.length < a.1.length then some a else some b

/-- `(*ServeMux).match`: the handler registered for exactly this path, else
the one with the longest registered pattern that ends in `/` and is a prefix
of the path. -/
def muxMatch (bindings : List (Text × Handler)) (path : Text) : Option Handler :=
  match bindings.find? (fun b => b.1 == path) with
  | some b => some b.2
  | none =>
    (longest (bindings.filter (fun b => b.1.getLast? == some '/' && b.1.isPrefixOf path))).map
      (fun b => b.2)

/-- `(*ServeMux).shouldRedirectRLocked`: the path is not registered and the
path followed by `/` is. -/
def shouldRedirect (bindings : List (Text × Handler)) (path : Text) : Bool :=
  !(bindings.any (fun b => b.1 == path)) && path ≠ [] &&
    bindings.any (fun b => b.1 == path ++ "/".toList) && path.getLast? ≠ some '/'

/-- `(*ServeMux).ServeHTTP` for a request whose target is a path (not `*`) and
whose method is not `CONNECT`: a path that names a registered subtree without
its final `/`, or that is not clean, is answered by the mux with a redirect;
otherwise the matching handler runs, and `http.NotFoundHandler` when there is
none. The status code of the mux's own redirects is the library's choice and
differs between releases of Go (301 or 307), so it is the parameter
`muxCode`. The host and the query string are not part of the model. -/
def muxServe (muxCode : Nat) (bindings : List (Text × Handler)) : Handler :=
  fun w r =>
    let path := cleanPath r.path
    if shouldRedirect bindings path then
      .returned (httpRedirect (path ++ "/".toList) muxCode w)
    else if path ≠ r.path then
      .returned (httpRedirect path muxCode w)
    else
      match muxMatch bindings r.path with
      | some h => h w r
      | none => .returned (httpNotFound w)

/-- The four `http.HandleFunc` calls of `main`. -/
def bindings (tpl : Templates) : List (Text × Handler) :=
  [("/".toList, rootHandler),
   ("/view/".toList, makeHandler (viewHandler tpl)),
   ("/edit/".toList, makeHandler (editHandler tpl)),
   ("/save/".toList, makeHandler saveHandler)]

/-- `main`: how the server it starts answers a request, the default mux with
the bindings above. -/
def main (tpl : Templates) (muxCode : Nat) : Handler := muxServe muxCode (bindings tpl)

/-! ## Auxiliary definitions for the proofs -/

/-- Threads left by a greedy run over the class `R`: longest run first. -/
def runs (R : List (Char × Char)) (caps : List (Nat × Text)) : Nat → Text → List MState
  | _, [] => []
  | pos, c :: cs =>
    if inClass R c then runs R caps (pos + 1) cs ++ [⟨pos + 1, cs, caps⟩] else []

/-- A token at the very start of `s`: its name and the text after the closing
bracket. -/
def linkAt (s : Text) : Option (Text × Text) :=
  match s with
  | [] => none
  | c :: u =>
    if c = '[' ∧ u.takeWhile (inClass alnum) ≠ [] ∧
        (u.dropWhile (inClass alnum)).head? = some ']' then
      some (u.takeWhile (inClass alnum), (u.dropWhile (inClass alnum)).tail)
    else none

/-- The leftmost token of `s`: the text before it, its name and the text after
its closing bracket. -/
def findLink : Text → Option (Text × Text × Text)
  | [] => none
  | c :: cs =>
    match linkAt (c :: cs) with
    | some (t, r) => some ([], t, r)
    | none => (findLink cs).map (fun x => (c :: x.1, x.2.1, x.2.2))

/-- The anchor element written for the token named `t`. -/
def anchor (t : Text) : Text :=
  "<a href='/view/".toList ++ t ++ "'>".toList ++ t ++ "</a>".toList

/-- Token-by-token rewriting, at most `n` tokens. -/
def rewriteN : Nat → Text → Text
  | 0, s => s
  | n + 1, s =>
    match findLink s with
    | none => s
    | some (pre, t, r) => pre ++ anchor t ++ rewriteN n r

/-- The route contract in the words of the specification: the path is `/`, an
action among `view`, `edit`, `save`, `/`, and a non-empty alphanumeric title. -/
def IsRoute (p action title : Text) : Prop :=
  action ∈ ["view".toList, "edit".toList, "save".toList] ∧ title ≠ [] ∧
    title.all Char.isAlphanum = true ∧ p = "/".toList ++ action ++ "/".toList ++ title

/-- A body that holds a token: `[`, one or more alphanumeric characters, `]`. -/
def HasToken (body : Text) : Prop :=
  ∃ pre t rest, t ≠ [] ∧ t.all Char.isAlphanum = true ∧
    body = pre ++ "[".toList ++ t ++ "]".toList ++ rest

/-- A path in one of the subtrees bound to a wrapped handler. -/
def InSubtree (p : Text) : Prop :=
  "/view/".toList <+: p ∨ "/edit/".toList <+: p ∨ "/save/".toList <+: p

/-- A path that names one of the three subtrees without its final `/`. -/
def NamesSubtree (p : Text) : Prop :=
  p = "/view".toList ∨ p = "/edit".toList ∨ p = "/save".toList

/-- A file system without the directory `data`, in which it can be created
and every write is allowed. -/
def emptyFS : FS := ⟨false, true, fun _ => none, fun _ => none⟩

/-- A file system in which `data` is missing and cannot be created. -/
def lockedFS : FS := ⟨false, false, fun _ => none, fun _ => none⟩

/-- Templates that always execute without error. -/
def okTemplates : Templates := fun _ _ => none

/-! ## Lemmas on the matcher -/

theorem matchRe_lit (w : Text) (st : MState) :
    matchRe (.lit w) st =
      if w.isPrefixOf st.rest then [⟨st.pos + w.length, st.rest.drop w.length, st.caps⟩]
      else [] := by
  simp only [matchRe]

theorem matchRe_cls_nil (R : List (Char × Char)) (pos : Nat) (caps : List (Nat × Text)) :
    matchRe (.cls R) ⟨pos, [], caps⟩ = [] := by
  simp only [matchRe]

theorem matchRe_cls_cons (R : List (Char × Char)) (pos : Nat) (caps : List (Nat × Text))
    (c : Char) (cs : Text) :
    matchRe (.cls R) ⟨pos, c :: cs, caps⟩ =
      if inClass R c then [⟨pos + 1, cs, caps⟩] else [] := by
  simp only [matchRe]

theorem matchRe_bot (st : MState) :
    matchRe .bot st = if st.pos = 0 then [st] else [] := by
  simp only [matchRe]

theorem matchRe_eot (st : MState) :
    matchRe .eot st = if st.rest = [] then [st] else [] := by
  simp only [matchRe]

theorem matchRe_seq (a b : Regex) (st : MState) :
    matchRe (.seq a b) st = (matchRe a st).flatMap (matchRe b) := by
  simp only [matchRe]

theorem matchRe_alt (a b : Regex) (st : MState) :
    matchRe (.alt a b) st = matchRe a st ++ matchRe b st := by
  simp only [matchRe]

theorem matchRe_group (i : Nat) (a : Regex) (st : MState) :
    matchRe (.group i a) st =
      (matchRe a st).map (fun st1 =>
        ⟨st1.pos, st1.rest, (i, st.rest.take (st1.pos - st.pos)) :: st1.caps⟩) := by
  simp only [matchRe]

theorem plusAux_cls (R : List (Char × Char)) (caps : List (Nat × Text)) :
    ∀ (n : Nat) (s : Text) (pos : Nat), s.length < n →
      plusAux (matchRe (.cls R)) n ⟨pos, s, caps⟩ = runs R caps pos s := by
  intro n
  induction n with
  | zero => intro s pos h; omega
  | succ n ih =>
    intro s pos h
    cases s with
    | nil => simp [plusAux, matchRe_cls_nil, runs]
    | cons c cs =>
      simp only [List.length_cons] at h
      by_cases hc : inClass R c = true
      · simp [plusAux, matchRe_cls_cons, runs, hc, ih cs (pos + 1) (by omega)]
      · simp [plusAux, matchRe_cls_cons, runs, hc]

theorem matchRe_plus_cls (R : List (Char × Char)) (st : MState) :
    matchRe (.plus (.cls R)) st = runs R st.caps st.pos st.rest := by
  obtain ⟨pos, s, caps⟩ := st
  simp only [matchRe]
  exact plusAux_cls R caps _ s pos (by omega)

theorem flatMap_eot (l : List MState) :
    l.flatMap (matchRe .eot) = l.filter (fun st => decide (st.rest = [])) := by
  induction l with
  | nil => rfl
  | cons a l ih =>
    by_cases h : a.rest = []
    · simp [List.flatMap_cons, matchRe_eot, h, ih]
    · simp [List.flatMap_cons, matchRe_eot, h, ih]

theorem runs_cons (R : List (Char × Char)) (caps : List (Nat × Text)) (pos : Nat)
    (c : Char) (cs : Text) :
    runs R caps pos (c :: cs) =
      if inClass R c then runs R caps (pos + 1) cs ++ [⟨pos + 1, cs, caps⟩] else [] := by
  simp only [runs]

theorem runs_filter_end (R : List (Char × Char)) (caps : List (Nat × Text)) :
    ∀ (s : Text) (pos : Nat),
      (runs R caps pos s).filter (fun st => decide (st.rest = [])) =
        if s ≠ [] ∧ s.all (inClass R) = true then [⟨pos + s.length, [], caps⟩] else [] := by
  intro s
  induction s with
  | nil => intro pos; simp [runs]
  | cons c cs ih =>
    intro pos
    rw [runs_cons]
    by_cases hc : inClass R c = true
    · simp only [hc, if_true, List.filter_append, ih]
      by_cases hcs : cs = []
      · subst hcs; simp [hc]
      · by_cases hall : cs.all (inClass R) = true
        · have hall2 : (c :: cs).all (inClass R) = true := by
            simp only [List.all_cons, hc, Bool.true_and]; exact hall
          simp only [hall, hall2, hcs, ne_eq, reduceCtorEq, not_false_eq_true, and_self, if_true]
          simp [hcs]
          omega
        · have hall2 : ¬ (c :: cs).all (inClass R) = true := by
            simp only [List.all_cons, hc, Bool.true_and]; exact hall
          simp only [hall, hall2, hcs, and_false, if_false]
          simp [hcs]
    · simp [hc]

theorem matchRe_group_plus_eot (i : Nat) (R : List (Char × Char)) (st : MState) :
    (matchRe (.group i (.plus (.cls R))) st).flatMap (matchRe .eot) =
      if st.rest ≠ [] ∧ st.rest.all (inClass R) = true then
        [⟨st.pos + st.rest.length, [], (i, st.rest) :: st.caps⟩]
      else [] := by
  rw [flatMap_eot, matchRe_group, matchRe_plus_cls, List.filter_map]
  have hf : ((fun st1 : MState => decide (st1.rest = [])) ∘ fun st1 : MState =>
      (⟨st1.pos, st1.rest, (i, st.rest.take (st1.pos - st.pos)) :: st1.caps⟩ : MState)) =
      fun st1 : MState => decide (st1.rest = []) := rfl
  rw [hf, runs_filter_end]
  split
  · simp
  · simp

theorem mem_matchRe_lit (w : Text) (st st1 : MState) :
    st1 ∈ matchRe (.lit w) st ↔
      ∃ r, st.rest = w ++ r ∧ st1 = ⟨st.pos + w.length, r, st.caps⟩ := by
  rw [matchRe_lit]
  constructor
  · intro h
    split at h
    · rename_i hp
      rw [List.isPrefixOf_iff_prefix] at hp
      obtain ⟨r, hr⟩ := hp
      refine ⟨r, hr.symm, ?_⟩
      simp only [List.mem_singleton] at h
      rw [h, ← hr, List.drop_left]
    · simp at h
  · rintro ⟨r, hr, rfl⟩
    have hp : w.isPrefixOf st.rest = true := by
      rw [List.isPrefixOf_iff_prefix, hr]; exact List.prefix_append w r
    simp [hp, hr]

theorem mem_matchRe_title (st0 st : MState) :
    st ∈ matchRe (.seq (.lit "/".toList) (.seq (.group 2 (.plus (.cls alnum))) .eot)) st0 ↔
      ∃ t, st0.rest = '/' :: t ∧ t ≠ [] ∧ t.all (inClass alnum) = true ∧
        st = ⟨st0.pos + 1 + t.length, [], (2, t) :: st0.caps⟩ := by
  rw [matchRe_seq, List.mem_flatMap]
  constructor
  · rintro ⟨s1, h1, h2⟩
    rw [mem_matchRe_lit] at h1
    obtain ⟨r, hr, rfl⟩ := h1
    rw [matchRe_seq, matchRe_group_plus_eot] at h2
    split at h2
    · rename_i hc
      simp only [List.mem_singleton] at h2
      exact ⟨r, hr, hc.1, hc.2, h2⟩
    · simp at h2
  · rintro ⟨t, ht, hne, hall, rfl⟩
    refine ⟨⟨st0.pos + 1, t, st0.caps⟩, ?_, ?_⟩
    · rw [mem_matchRe_lit]; exact ⟨t, ht, rfl⟩
    · rw [matchRe_seq, matchRe_group_plus_eot]
      simp [hne, hall]

theorem mem_matchRe_action (e s v : Text) (st0 st : MState) :
    st ∈ matchRe (.group 1 (.alt (.alt (.lit e) (.lit s)) (.lit v))) st0 ↔
      ∃ action r, action ∈ [e, s, v] ∧ st0.rest = action ++ r ∧
        st = ⟨st0.pos + action.length, r, (1, action) :: st0.caps⟩ := by
  rw [matchRe_group, List.mem_map]
  simp only [matchRe_alt, List.mem_append, mem_matchRe_lit]
  constructor
  · rintro ⟨s1, ((⟨r, hr, rfl⟩ | ⟨r, hr, rfl⟩) | ⟨r, hr, rfl⟩), rfl⟩
    · exact ⟨e, r, by simp, hr, by simp [hr]⟩
    · exact ⟨s, r, by simp, hr, by simp [hr]⟩
    · exact ⟨v, r, by simp, hr, by simp [hr]⟩
  · rintro ⟨action, r, hmem, hr, rfl⟩
    simp only [List.mem_cons, List.mem_singleton, List.not_mem_nil, or_false] at hmem
    refine ⟨⟨st0.pos + action.length, r, st0.caps⟩, ?_, by simp [hr]⟩
    rcases hmem with rfl | rfl | rfl
    · exact Or.inl (Or.inl ⟨r, hr, rfl⟩)
    · exact Or.inl (Or.inr ⟨r, hr, rfl⟩)
    · exact Or.inr ⟨r, hr, rfl⟩

theorem mem_matchRe_validPath (pos : Nat) (p : Text) (st : MState) :
    st ∈ matchRe validPath ⟨pos, p, []⟩ ↔
      pos = 0 ∧ ∃ action t, action ∈ ["edit".toList, "save".toList, "view".toList] ∧
        t ≠ [] ∧ t.all (inClass alnum) = true ∧
        p = '/' :: (action ++ '/' :: t) ∧
        st = ⟨1 + action.length + 1 + t.length, [], [(2, t), (1, action)]⟩ := by
  unfold validPath
  rw [matchRe_seq, List.mem_flatMap]
  constructor
  · rintro ⟨s1, h1, h2⟩
    rw [matchRe_bot] at h1
    split at h1
    · rename_i hpos
      simp only [List.mem_singleton] at h1
      subst h1
      simp only at hpos
      subst hpos
      rw [matchRe_seq, List.mem_flatMap] at h2
      obtain ⟨s2, h2, h3⟩ := h2
      rw [mem_matchRe_lit] at h2
      obtain ⟨r2, hr2, rfl⟩ := h2
      rw [matchRe_seq, List.mem_flatMap] at h3
      obtain ⟨s3, h3, h4⟩ := h3
      rw [mem_matchRe_action] at h3
      obtain ⟨action, r3, hmem, hr3, rfl⟩ := h3
      rw [mem_matchRe_title] at h4
      obtain ⟨t, ht, hne, hall, rfl⟩ := h4
      simp only at hr2 hr3 ht
      refine ⟨rfl, action, t, hmem, hne, hall, ?_, ?_⟩
      · rw [hr2, hr3, ht]; rfl
      · simp
    · simp at h1
  · rintro ⟨rfl, action, t, hmem, hne, hall, rfl, rfl⟩
    refine ⟨⟨0, '/' :: (action ++ '/' :: t), []⟩, by simp [matchRe_bot], ?_⟩
    rw [matchRe_seq, List.mem_flatMap]
    refine ⟨⟨1, action ++ '/' :: t, []⟩, ?_, ?_⟩
    · rw [mem_matchRe_lit]; exact ⟨_, rfl, by simp⟩
    rw [matchRe_seq, List.mem_flatMap]
    refine ⟨⟨1 + action.length, '/' :: t, [(1, action)]⟩, ?_, ?_⟩
    · rw [mem_matchRe_action]; exact ⟨action, _, hmem, rfl, rfl⟩
    · rw [mem_matchRe_title]; exact ⟨t, rfl, hne, hall, rfl⟩

theorem matchRe_validPath_pos (pos : Nat) (s : Text) (h : 0 < pos) :
    matchRe validPath ⟨pos, s, []⟩ = [] := by
  rw [List.eq_nil_iff_forall_not_mem]
  intro st hst
  rw [mem_matchRe_validPath] at hst
  omega

theorem search_validPath_pos : ∀ (s : Text) (pos : Nat), 0 < pos →
    search validPath pos s = none := by
  intro s
  induction s with
  | nil => intro pos h; simp [search, matchRe_validPath_pos pos [] h]
  | cons c cs ih =>
    intro pos h
    simp [search, matchRe_validPath_pos pos (c :: cs) h, ih (pos + 1) (by omega)]

theorem action_length (a : Text)
    (h : a ∈ ["edit".toList, "save".toList, "view".toList]) : a.length = 4 := by
  simp only [List.mem_cons, List.mem_singleton, List.not_mem_nil, or_false] at h
  rcases h with rfl | rfl | rfl <;> rfl

theorem route_unique (a1 a2 t1 t2 : Text)
    (h1 : a1 ∈ ["edit".toList, "save".toList, "view".toList])
    (h2 : a2 ∈ ["edit".toList, "save".toList, "view".toList])
    (h : '/' :: (a1 ++ '/' :: t1) = '/' :: (a2 ++ '/' :: t2)) : a1 = a2 ∧ t1 = t2 := by
  have hl1 := action_length a1 h1
  have hl2 := action_length a2 h2
  have h3 : a1 ++ '/' :: t1 = a2 ++ '/' :: t2 := by simpa using h
  have h4 := List.append_inj h3 (by rw [hl1, hl2])
  exact ⟨h4.1, by simpa using h4.2⟩

theorem search_validPath (p : Text) (r : Nat × MState) :
    search validPath 0 p = some r ↔ r.1 = 0 ∧ r.2 ∈ matchRe validPath ⟨0, p, []⟩ := by
  have huniq : ∀ st1 st2, st1 ∈ matchRe validPath ⟨0, p, []⟩ →
      st2 ∈ matchRe validPath ⟨0, p, []⟩ → st1 = st2 := by
    intro st1 st2 h1 h2
    rw [mem_matchRe_validPath] at h1 h2
    obtain ⟨-, a1, t1, ha1, -, -, hp1, rfl⟩ := h1
    obtain ⟨-, a2, t2, ha2, -, -, hp2, rfl⟩ := h2
    obtain ⟨rfl, rfl⟩ := route_unique a1 a2 t1 t2 ha1 ha2 (hp1.symm.trans hp2)
    rfl
  have hhead : ∀ st, (matchRe validPath ⟨0, p, []⟩).head? = some st ↔
      st ∈ matchRe validPath ⟨0, p, []⟩ := by
    intro st
    constructor
    · intro h; exact List.mem_of_mem_head? h
    · intro h
      cases hl : matchRe validPath ⟨0, p, []⟩ with
      | nil => rw [hl] at h; simp at h
      | cons x xs =>
        have hx : x ∈ matchRe validPath ⟨0, p, []⟩ := by rw [hl]; simp
        rw [huniq st x h hx]; rfl
  obtain ⟨k, st⟩ := r
  cases p with
  | nil =>
    simp only [search, Option.map_eq_some', Prod.mk.injEq]
    constructor
    · rintro ⟨a, ha, rfl, rfl⟩; exact ⟨rfl, (hhead _).1 ha⟩
    · rintro ⟨rfl, h⟩; exact ⟨st, (hhead _).2 h, rfl, rfl⟩
  | cons c cs =>
    simp only [search]
    cases hl : (matchRe validPath ⟨0, c :: cs, []⟩).head? with
    | none =>
      simp only [search_validPath_pos cs (0 + 1) (by omega), false_iff, not_and, reduceCtorEq]
      intro _ h
      rw [← hhead, hl] at h
      simp at h
    | some x =>
      simp only [Option.some.injEq, Prod.mk.injEq]
      constructor
      · rintro ⟨rfl, rfl⟩; exact ⟨rfl, (hhead _).1 hl⟩
      · rintro ⟨rfl, h⟩
        rw [← hhead, hl] at h
        exact ⟨rfl, by simpa using h⟩

theorem inClass_alnum (c : Char) : inClass alnum c = c.isAlphanum := by
  simp only [inClass, alnum, List.any_cons, List.any_nil, Bool.or_false, Char.isAlphanum,
    Char.isAlpha, Char.isUpper, Char.isLower, Char.isDigit, Char.le_def]
  rw [Bool.eq_iff_iff]
  simp only [Bool.or_eq_true, Bool.and_eq_true, decide_eq_true_eq, ge_iff_le]
  have e1 : ('a' : Char).val = 97 := rfl
  have e2 : ('z' : Char).val = 122 := rfl
  have e3 : ('A' : Char).val = 65 := rfl
  have e4 : ('Z' : Char).val = 90 := rfl
  have e5 : ('0' : Char).val = 48 := rfl
  have e6 : ('9' : Char).val = 57 := rfl
  rw [e1, e2, e3, e4, e5, e6]
  tauto

theorem findStringSubmatch_validPath (p : Text) (m : List Text) :
    findStringSubmatch validPath 2 p = some m ↔
      ∃ action t, action ∈ ["edit".toList, "save".toList, "view".toList] ∧
        t ≠ [] ∧ t.all (inClass alnum) = true ∧
        p = '/' :: (action ++ '/' :: t) ∧ m = [p, action, t] := by
  unfold findStringSubmatch
  cases hs : search validPath 0 p with
  | none =>
    simp only [false_iff, not_exists, not_and, reduceCtorEq]
    intro action t hmem hne hall hp _
    have : search validPath 0 p = some (0, ⟨1 + action.length + 1 + t.length, [],
        [(2, t), (1, action)]⟩) := by
      rw [search_validPath]
      exact ⟨rfl, (mem_matchRe_validPath 0 p _).2 ⟨rfl, action, t, hmem, hne, hall, hp, rfl⟩⟩
    rw [hs] at this
    simp at this
  | some r =>
    obtain ⟨k, st⟩ := r
    rw [search_validPath] at hs
    obtain ⟨hk, hst⟩ := hs
    simp only at hk hst
    subst hk
    rw [mem_matchRe_validPath] at hst
    obtain ⟨-, action, t, hmem, hne, hall, hp, rfl⟩ := hst
    have hlen : 1 + action.length + 1 + t.length = p.length := by
      rw [hp]; simp; omega
    have hm : ((p.drop 0).take (1 + action.length + 1 + t.length - 0)) ::
        (List.range 2).map (fun i => capture [(2, t), (1, action)] (i + 1)) = [p, action, t] := by
      rw [hlen]
      simp [capture, List.range, List.range.loop]
    simp only [hm, Option.some.injEq]
    constructor
    · intro h; exact ⟨action, t, hmem, hne, hall, hp, h.symm⟩
    · rintro ⟨a2, t2, hmem2, -, -, hp2, rfl⟩
      obtain ⟨rfl, rfl⟩ := route_unique action a2 t t2 hmem hmem2 (hp.symm.trans hp2)
      rfl

theorem matchRe_lit_one (c : Char) (pos : Nat) (s : Text) (caps : List (Nat × Text)) :
    matchRe (.lit [c]) ⟨pos, s, caps⟩ =
      if s.head? = some c then [⟨pos + 1, s.tail, caps⟩] else [] := by
  rw [matchRe_lit]
  cases s with
  | nil => simp
  | cons y ys =>
    by_cases h : c = y
    · subst h; simp
    · have h2 : ¬ y = c := fun e => h e.symm
      simp [h, h2]

theorem runs_flatMap_lit (R : List (Char × Char)) (caps : List (Nat × Text)) (c : Char)
    (hc : inClass R c = false) : ∀ (s : Text) (pos : Nat),
      (runs R caps pos s).flatMap (matchRe (.lit [c])) =
        if s.takeWhile (inClass R) ≠ [] ∧ (s.dropWhile (inClass R)).head? = some c then
          [⟨pos + (s.takeWhile (inClass R)).length + 1, (s.dropWhile (inClass R)).tail, caps⟩]
        else [] := by
  intro s
  induction s with
  | nil => intro pos; simp [runs]
  | cons x xs ih =>
    intro pos
    rw [runs_cons]
    by_cases hx : inClass R x = true
    · simp only [hx, if_true, List.flatMap_append, ih, List.flatMap_cons, List.flatMap_nil,
        List.append_nil, matchRe_lit_one, List.takeWhile_cons, List.dropWhile_cons]
      cases xs with
      | nil => simp
      | cons y ys =>
        by_cases hy : inClass R y = true
        · have hyc : ¬ y = c := by
            intro e; rw [e, hc] at hy; exact Bool.noConfusion hy
          simp [hy, hyc]
          split
          · simp; omega
          · rfl
        · simp [hy]
    · simp [hx]

theorem matchRe_linksPattern (pos : Nat) (s : Text) (caps : List (Nat × Text)) :
    matchRe linksPattern ⟨pos, s, caps⟩ =
      match linkAt s with
      | some (t, r) => [⟨pos + 1 + t.length + 1, r, caps⟩]
      | none => [] := by
  have hb : inClass alnum ']' = false := by decide
  have e1 : "[".toList = ['['] := rfl
  have e2 : "]".toList = [']'] := rfl
  unfold linksPattern
  rw [e1, e2, matchRe_seq, matchRe_lit_one]
  cases s with
  | nil => simp [linkAt]
  | cons c u =>
    by_cases hc : c = '['
    · subst hc
      simp only [List.head?_cons, if_true, List.flatMap_cons, List.flatMap_nil, List.append_nil,
        List.tail_cons, matchRe_seq, matchRe_plus_cls, runs_flatMap_lit alnum caps ']' hb, linkAt,
        true_and]
      split <;> rfl
    · have hc2 : ¬ (some c = some '[') := by simpa using hc
      simp [linkAt, hc]

theorem linkAt_some (s t r : Text) (h : linkAt s = some (t, r)) :
    s = '[' :: (t ++ ']' :: r) ∧ t ≠ [] ∧ t.all (inClass alnum) = true := by
  cases s with
  | nil => simp [linkAt] at h
  | cons c u =>
    simp only [linkAt] at h
    split at h
    · rename_i hc
      obtain ⟨rfl, hne, hd⟩ := hc
      simp only [Option.some.injEq, Prod.mk.injEq] at h
      obtain ⟨rfl, rfl⟩ := h
      refine ⟨?_, hne, ?_⟩
      · have h1 : u.dropWhile (inClass alnum) = ']' :: (u.dropWhile (inClass alnum)).tail := by
          cases hdw : u.dropWhile (inClass alnum) with
          | nil => rw [hdw] at hd; simp at hd
          | cons y ys => rw [hdw] at hd; simp at hd; simp [hd]
        rw [← h1, List.takeWhile_append_dropWhile]
      · rw [List.all_eq_true]
        intro x hx
        exact List.mem_takeWhile_imp hx
    · simp at h

theorem findLink_some : ∀ (s pre t r : Text), findLink s = some (pre, t, r) →
    s = pre ++ '[' :: (t ++ ']' :: r) ∧ t ≠ [] ∧ t.all (inClass alnum) = true := by
  intro s
  induction s with
  | nil => intro pre t r h; simp [findLink] at h
  | cons c cs ih =>
    intro pre t r h
    simp only [findLink] at h
    cases hl : linkAt (c :: cs) with
    | some x =>
      obtain ⟨t1, r1⟩ := x
      rw [hl] at h
      simp only [Option.some.injEq, Prod.mk.injEq] at h
      obtain ⟨rfl, rfl, rfl⟩ := h
      simpa using linkAt_some _ _ _ hl
    | none =>
      rw [hl] at h
      simp only [Option.map_eq_some'] at h
      obtain ⟨⟨p1, t1, r1⟩, hf, he⟩ := h
      simp only [Prod.mk.injEq] at he
      obtain ⟨rfl, rfl, rfl⟩ := he
      obtain ⟨h1, h2, h3⟩ := ih p1 t1 r1 hf
      exact ⟨by rw [h1]; rfl, h2, h3⟩

theorem search_linksPattern : ∀ (s : Text) (pos : Nat),
    search linksPattern pos s =
      (findLink s).map (fun x =>
        (pos + x.1.length, ⟨pos + x.1.length + 1 + x.2.1.length + 1, x.2.2, []⟩)) := by
  intro s
  induction s with
  | nil => intro pos; simp [search, matchRe_linksPattern, linkAt, findLink]
  | cons c cs ih =>
    intro pos
    simp only [search, matchRe_linksPattern, findLink]
    cases hl : linkAt (c :: cs) with
    | some x => obtain ⟨t1, r1⟩ := x; simp
    | none =>
      simp only [List.head?_nil, ih, Option.map_map]
      congr 1
      funext x
      simp only [Function.comp, List.length_cons, Prod.mk.injEq, MState.mk.injEq, and_true]
      constructor <;> omega

theorem replaceWikiLinks_token (t : Text) :
    replaceWikiLinks ('[' :: (t ++ [']'])) = some (anchor t) := by
  have h1 : ¬ (('[' :: (t ++ [']'])).length < 2) := by simp
  have h2 : ((('[' :: (t ++ [']'])).take (('[' :: (t ++ [']'])).length - 1)).drop 1) = t := by
    simp
  simp only [replaceWikiLinks, h1, if_false, h2, anchor]

theorem replaceAllLoop_links : ∀ (fuel pos : Nat) (s : Text), s.length < fuel →
    replaceAllLoop linksPattern replaceWikiLinks fuel pos pos [] s = some (rewriteN fuel s) := by
  intro fuel
  induction fuel with
  | zero => intro pos s h; omega
  | succ n ih =>
    intro pos s hfuel
    rw [replaceAllLoop, rewriteN, search_linksPattern]
    cases hf : findLink s with
    | none => simp
    | some x =>
      obtain ⟨pre, t, r⟩ := x
      obtain ⟨hs, -, -⟩ := findLink_some s pre t r hf
      have ha0 : pos + pre.length - pos = pre.length := by omega
      have ha1 : pos + pre.length + 1 + t.length + 1 - (pos + pre.length) = t.length + 2 := by
        omega
      have hgt : pos + pre.length + 1 + t.length + 1 > pos := by omega
      have hne : ¬ s = [] := by rw [hs]; simp
      have hn1 : ¬ (pos + 1 > pos + pre.length + 1 + t.length + 1) := by omega
      have hlen : s.length = pre.length + 1 + t.length + 1 + r.length := by
        rw [hs]; simp; omega
      have hle : pos + pre.length + 1 + t.length + 1 ≤ pos + s.length := by omega
      have hd : pos + pre.length + 1 + t.length + 1 - pos = pre.length + (t.length + 2) := by
        omega
      have htake : s.take pre.length = pre := by rw [hs]; simp
      have hmatch : (s.drop pre.length).take (t.length + 2) = '[' :: (t ++ [']']) := by
        rw [hs, List.drop_left]
        have : '[' :: (t ++ ']' :: r) = ('[' :: (t ++ [']'])) ++ r := by simp
        rw [this]
        have hl2 : t.length + 2 = ('[' :: (t ++ [']'])).length := by simp
        rw [hl2, List.take_left]
      have hrest : s.drop (pre.length + (t.length + 2)) = r := by
        rw [← List.drop_drop, hs, List.drop_left]
        have : '[' :: (t ++ ']' :: r) = ('[' :: (t ++ [']'])) ++ r := by simp
        rw [this]
        have hl2 : t.length + 2 = ('[' :: (t ++ [']'])).length := by simp
        rw [hl2, List.drop_left]
      have hr : r.length < n := by omega
      simp only [Option.map_some', ha0, ha1, hgt, true_or, if_true, hne, if_false, hn1, hle, hd,
        htake, hmatch, hrest, replaceWikiLinks_token, Nat.sub_self, List.take_zero,
        ih _ r hr, List.nil_append]

theorem parseWiki_eq (p : Page) : parseWiki p = some (rewriteN (p.Body.length + 1) p.Body) := by
  unfold parseWiki replaceAllFunc
  exact replaceAllLoop_links _ 0 _ (by omega)

theorem linkAt_token (t rest : Text) (hne : t ≠ []) (hall : t.all (inClass alnum) = true) :
    linkAt ('[' :: (t ++ ']' :: rest)) = some (t, rest) := by
  have hb : ¬ (inClass alnum ']' = true) := by decide
  have hall2 : ∀ a ∈ t, inClass alnum a = true := by simpa [List.all_eq_true] using hall
  have h1 : (t ++ ']' :: rest).takeWhile (inClass alnum) = t := by
    rw [List.takeWhile_append_of_pos hall2, List.takeWhile_cons_of_neg hb, List.append_nil]
  have h2 : (t ++ ']' :: rest).dropWhile (inClass alnum) = ']' :: rest := by
    rw [List.dropWhile_append_of_pos hall2, List.dropWhile_cons_of_neg hb]
  simp [linkAt, h1, h2, hne]

theorem linkAt_ne (c : Char) (cs : Text) (h : c ≠ '[') : linkAt (c :: cs) = none := by
  simp [linkAt, h]

theorem findLink_token (t rest : Text) (hne : t ≠ []) (hall : t.all (inClass alnum) = true) :
    ∀ pre : Text, '[' ∉ pre →
      findLink (pre ++ '[' :: (t ++ ']' :: rest)) = some (pre, t, rest) := by
  intro pre
  induction pre with
  | nil => intro _; simp [findLink, linkAt_token t rest hne hall]
  | cons c cs ih =>
    intro h
    simp only [List.mem_cons, not_or] at h
    have hc : c ≠ '[' := fun e => h.1 e.symm
    simp [findLink, linkAt_ne c _ hc, ih h.2]

theorem findLink_length (s pre t r : Text) (h : findLink s = some (pre, t, r)) :
    r.length < s.length := by
  obtain ⟨hs, -, -⟩ := findLink_some s pre t r h
  rw [hs]; simp; omega

theorem rewriteN_stable : ∀ (n m : Nat) (s : Text), s.length < n → s.length < m →
    rewriteN n s = rewriteN m s := by
  intro n
  induction n with
  | zero => intro m s h; omega
  | succ n ih =>
    intro m s hn hm
    cases m with
    | zero => omega
    | succ m =>
      simp only [rewriteN]
      cases hf : findLink s with
      | none => rfl
      | some x =>
        obtain ⟨pre, t, r⟩ := x
        have hl := findLink_length s pre t r hf
        simp only
        rw [ih m r (by omega) (by omega)]

theorem rewriteN_of_none (n : Nat) (s : Text) (h : findLink s = none) : rewriteN n s = s := by
  cases n with
  | zero => rfl
  | succ n => simp [rewriteN, h]

theorem takeWhile_append_stop (p : Char → Bool) (x : Char) (hx : p x = false) (Z : Text) :
    ∀ v : Text, (v ++ x :: Z).takeWhile p = v.takeWhile p := by
  intro v
  induction v with
  | nil => simp [hx]
  | cons a v ih =>
    by_cases ha : p a = true
    · simp [List.takeWhile_cons, ha, ih]
    · simp [List.takeWhile_cons, ha]

theorem dropWhile_append_stop (p : Char → Bool) (x : Char) (hx : p x = false) (Z : Text) :
    ∀ v : Text, (v ++ x :: Z).dropWhile p = v.dropWhile p ++ x :: Z := by
  intro v
  induction v with
  | nil => simp [hx]
  | cons a v ih =>
    by_cases ha : p a = true
    · simp [List.dropWhile_cons, ha, ih]
    · simp [List.dropWhile_cons, ha]

/-- Whether a token starts at `c :: v` is not changed by appending text that
begins with a character that is neither alphanumeric nor `]`. -/
theorem linkAt_append_stop (c x : Char) (v Z : Text) (hx : inClass alnum x = false)
    (hx2 : x ≠ ']') :
    (linkAt (c :: (v ++ x :: Z))).isSome = (linkAt (c :: v)).isSome := by
  have hh : ((v.dropWhile (inClass alnum) ++ x :: Z).head? = some ']') ↔
      ((v.dropWhile (inClass alnum)).head? = some ']') := by
    cases v.dropWhile (inClass alnum) with
    | nil => simp [hx2]
    | cons y ys => simp
  simp only [linkAt, takeWhile_append_stop _ x hx Z v, dropWhile_append_stop _ x hx Z v, hh]
  split <;> rfl

theorem findLink_cons (c : Char) (cs : Text) :
    findLink (c :: cs) =
      match linkAt (c :: cs) with
      | some (t, r) => some ([], t, r)
      | none => (findLink cs).map (fun x => (c :: x.1, x.2.1, x.2.2)) := by
  simp only [findLink]

theorem findLink_append_noBracket (out : Text) (hout : findLink out = none) :
    ∀ A : Text, '[' ∉ A → findLink (A ++ out) = none := by
  intro A
  induction A with
  | nil => intro _; simpa using hout
  | cons c cs ih =>
    intro h
    simp only [List.mem_cons, not_or] at h
    have hc : c ≠ '[' := fun e => h.1 e.symm
    simp [findLink, linkAt_ne c _ hc, ih h.2]

theorem anchor_noBracket (t : Text) (hall : t.all (inClass alnum) = true) :
    '[' ∉ anchor t := by
  have hb : ¬ (inClass alnum '[' = true) := by decide
  have ht : '[' ∉ t := by
    intro h
    rw [List.all_eq_true] at hall
    exact hb (hall _ h)
  have h1 : '[' ∉ "<a href='/view/".toList := by decide
  have h2 : '[' ∉ "'>".toList := by decide
  have h3 : '[' ∉ "</a>".toList := by decide
  simp only [anchor, List.mem_append, not_or]
  exact ⟨⟨⟨⟨h1, ht⟩, h2⟩, ht⟩, h3⟩

/-- Text in front of the leftmost token holds no token, also when the token
is replaced by text that starts with a character other than `]` and outside
the class. -/
theorem findLink_prefix_stop (x : Char) (Z t r : Text) (hx : inClass alnum x = false)
    (hx2 : x ≠ ']') (hY : findLink (x :: Z) = none) :
    ∀ pre : Text, findLink (pre ++ '[' :: (t ++ ']' :: r)) = some (pre, t, r) →
      findLink (pre ++ x :: Z) = none := by
  have hb : inClass alnum '[' = false := by decide
  have hb2 : '[' ≠ ']' := by decide
  intro pre
  induction pre with
  | nil => intro _; simpa using hY
  | cons c cs ih =>
    intro h
    rw [List.cons_append, findLink_cons] at h
    cases hl : linkAt (c :: (cs ++ '[' :: (t ++ ']' :: r))) with
    | some y =>
      rw [hl] at h
      simp at h
    | none =>
      rw [hl] at h
      simp only [Option.map_eq_some'] at h
      obtain ⟨⟨p1, t1, r1⟩, hf, he⟩ := h
      simp only [Prod.mk.injEq, List.cons.injEq, true_and] at he
      obtain ⟨rfl, rfl, rfl⟩ := he
      have h1 : linkAt (c :: (p1 ++ x :: Z)) = none := by
        have e1 := linkAt_append_stop c x p1 Z hx hx2
        have e2 := linkAt_append_stop c '[' p1 (t1 ++ ']' :: r1) hb hb2
        rw [hl] at e2
        rw [← e2] at e1
        simpa using e1
      rw [List.cons_append, findLink_cons, h1, ih hf]
      rfl

theorem findLink_rewriteN : ∀ (n : Nat) (s : Text), s.length < n →
    findLink (rewriteN n s) = none := by
  intro n
  induction n with
  | zero => intro s h; omega
  | succ n ih =>
    intro s hn
    simp only [rewriteN]
    cases hf : findLink s with
    | none => simpa using hf
    | some y =>
      obtain ⟨pre, t, r⟩ := y
      obtain ⟨hs, hne, hall⟩ := findLink_some s pre t r hf
      have hl := findLink_length s pre t r hf
      have hr := ih r (by omega)
      have hA : findLink (anchor t ++ rewriteN n r) = none :=
        findLink_append_noBracket _ hr _ (anchor_noBracket t hall)
      have hA2 : anchor t ++ rewriteN n r =
          '<' :: ("a href='/view/".toList ++ t ++ "'>".toList ++ t ++ "</a>".toList
            ++ rewriteN n r) := by
        simp [anchor]
      simp only [List.append_assoc]
      rw [hA2] at hA ⊢
      rw [hs] at hf
      exact findLink_prefix_stop '<' _ t r (by decide) (by decide) hA pre hf

/-! ## Lemmas on the page store and the handlers -/

theorem all_alnum_iff (t : Text) :
    t.all (inClass alnum) = t.all Char.isAlphanum := by
  have : inClass alnum = Char.isAlphanum := funext inClass_alnum
  rw [this]

theorem isRoute_iff (p action title : Text) :
    IsRoute p action title ↔
      action ∈ ["edit".toList, "save".toList, "view".toList] ∧ title ≠ [] ∧
        title.all (inClass alnum) = true ∧ p = '/' :: (action ++ '/' :: title) := by
  unfold IsRoute
  rw [all_alnum_iff]
  have e : "/".toList = ['/'] := rfl
  simp only [e, List.mem_cons, List.mem_singleton, List.not_mem_nil, or_false,
    List.singleton_append, List.append_assoc, List.cons_append, List.nil_append]
  tauto

theorem findStringSubmatch_iff_isRoute (p : Text) (m : List Text) :
    findStringSubmatch validPath 2 p = some m ↔
      ∃ action title, IsRoute p action title ∧ m = [p, action, title] := by
  rw [findStringSubmatch_validPath]
  constructor
  · rintro ⟨a, t, h1, h2, h3, h4, h5⟩
    exact ⟨a, t, (isRoute_iff p a t).2 ⟨h1, h2, h3, h4⟩, h5⟩
  · rintro ⟨a, t, h, h5⟩
    obtain ⟨h1, h2, h3, h4⟩ := (isRoute_iff p a t).1 h
    exact ⟨a, t, h1, h2, h3, h4, h5⟩

theorem findStringSubmatch_none_iff (p : Text) :
    findStringSubmatch validPath 2 p = none ↔ ¬ ∃ action title, IsRoute p action title := by
  constructor
  · rintro h ⟨a, t, hr⟩
    have := (findStringSubmatch_iff_isRoute p [p, a, t]).2 ⟨a, t, hr, rfl⟩
    rw [h] at this
    exact Option.noConfusion this
  · intro h
    cases hm : findStringSubmatch validPath 2 p with
    | none => rfl
    | some m =>
      obtain ⟨a, t, hr, -⟩ := (findStringSubmatch_iff_isRoute p m).1 hm
      exact absurd ⟨a, t, hr⟩ h

theorem writeFile_ok (path data : Text) (w : World) (h : (writeFile path data w).1 = none) :
    (writeFile path data w).2.fs.dataDir = true ∧
      (writeFile path data w).2.fs.files path = some data := by
  unfold writeFile at h ⊢
  by_cases hd : w.fs.dataDir = false
  · simp [hd] at h
  · cases hdeny : w.fs.denyWrite path with
    | some e => simp [hd, hdeny] at h
    | none =>
      simp only [Bool.not_eq_false] at hd
      simp [hd, hdeny]

theorem save_ok (p : Page) (w : World) (h : (p.save w).1 = none) :
    (p.save w).2.fs.dataDir = true ∧
      (p.save w).2.fs.files (pageDataRoot ++ (p.Title ++ ".txt".toList)) = some p.Body :=
  writeFile_ok _ _ _ h

theorem readFile_of_file (path data : Text) (w : World) (hd : w.fs.dataDir = true)
    (hf : w.fs.files path = some data) :
    readFile path w = (.ok data, { w with ops := w.ops ++ [.readFile path] }) := by
  unfold readFile
  rw [hd, hf]
  rfl

theorem loadPage_of_file (title body : Text) (w : World) (hd : w.fs.dataDir = true)
    (hf : w.fs.files (pageDataRoot ++ (title ++ ".txt".toList)) = some body) :
    (loadPage title w).1 = .ok { Title := title, Body := body, HTMLBody := [] } := by
  unfold loadPage
  simp only []
  rw [readFile_of_file _ _ w hd hf]

theorem hasToken_iff (body : Text) :
    HasToken body ↔ ∃ pre t rest, t ≠ [] ∧ t.all (inClass alnum) = true ∧
      body = pre ++ '[' :: (t ++ ']' :: rest) := by
  unfold HasToken
  have e1 : "[".toList = ['['] := rfl
  have e2 : "]".toList = [']'] := rfl
  simp only [e1, e2, all_alnum_iff, List.append_assoc, List.singleton_append, List.cons_append,
    List.nil_append]

theorem findLink_of_token (t rest : Text) (hne : t ≠ []) (hall : t.all (inClass alnum) = true) :
    ∀ pre : Text, (findLink (pre ++ '[' :: (t ++ ']' :: rest))).isSome = true := by
  intro pre
  induction pre with
  | nil => simp [findLink, linkAt_token t rest hne hall]
  | cons c cs ih =>
    rw [List.cons_append, findLink_cons]
    cases linkAt (c :: (cs ++ '[' :: (t ++ ']' :: rest))) with
    | some y => rfl
    | none => simpa using ih

theorem findLink_none_iff (body : Text) : findLink body = none ↔ ¬ HasToken body := by
  rw [hasToken_iff]
  constructor
  · rintro h ⟨pre, t, rest, hne, hall, rfl⟩
    have := findLink_of_token t rest hne hall pre
    rw [h] at this
    exact Bool.noConfusion this
  · intro h
    cases hf : findLink body with
    | none => rfl
    | some y =>
      obtain ⟨pre, t, r⟩ := y
      obtain ⟨hs, hne, hall⟩ := findLink_some body pre t r hf
      exact absurd ⟨pre, t, r, hne, hall, hs⟩ h

theorem rewriteN_succ_some (n : Nat) (s pre t r : Text) (h : findLink s = some (pre, t, r)) :
    rewriteN (n + 1) s = pre ++ anchor t ++ rewriteN n r := by
  simp only [rewriteN, h]
theorem longest_mem : ∀ (l : List (Text × Handler)) (b : Text × Handler),
    longest l = some b → b ∈ l := by
  intro l
  induction l with
  | nil => intro b h; simp [longest] at h
  | cons a l ih =>
    intro b h
    simp only [longest] at h
    cases hl : longest l with
    | none => rw [hl] at h; simp at h; simp [h]
    | some x =>
      rw [hl] at h
      simp only at h
      split at h
      · simp only [Option.some.injEq] at h
        subst h
        exact List.mem_cons_of_mem _ (ih _ hl)
      · simp only [Option.some.injEq] at h
        simp [h]

theorem muxMatch_mem (bs : List (Text × Handler)) (p : Text) (h : Handler)
    (hm : muxMatch bs p = some h) : ∃ b ∈ bs, b.2 = h := by
  unfold muxMatch at hm
  cases hf : bs.find? (fun b => b.1 == p) with
  | some b =>
    rw [hf] at hm
    simp only [Option.some.injEq] at hm
    exact ⟨b, List.mem_of_find?_eq_some hf, hm⟩
  | none =>
    rw [hf] at hm
    simp only [Option.map_eq_some'] at hm
    obtain ⟨b, hb, rfl⟩ := hm
    exact ⟨b, (List.mem_filter.1 (longest_mem _ _ hb)).1, rfl⟩

theorem muxMatch_view (tpl : Templates) (q : Text) :
    muxMatch (bindings tpl) ("/view/".toList ++ q) = some (makeHandler (viewHandler tpl)) := by
  have e : "/view/".toList ++ q = '/' :: 'v' :: 'i' :: 'e' :: 'w' :: '/' :: q := rfl
  rw [e]
  cases q with
  | nil => rfl
  | cons c cs =>
    simp [muxMatch, bindings, longest]

theorem muxMatch_edit (tpl : Templates) (q : Text) :
    muxMatch (bindings tpl) ("/edit/".toList ++ q) = some (makeHandler (editHandler tpl)) := by
  have e : "/edit/".toList ++ q = '/' :: 'e' :: 'd' :: 'i' :: 't' :: '/' :: q := rfl
  rw [e]
  cases q with
  | nil => rfl
  | cons c cs =>
    simp [muxMatch, bindings, longest]

theorem muxMatch_save (tpl : Templates) (q : Text) :
    muxMatch (bindings tpl) ("/save/".toList ++ q) = some (makeHandler saveHandler) := by
  have e : "/save/".toList ++ q = '/' :: 's' :: 'a' :: 'v' :: 'e' :: '/' :: q := rfl
  rw [e]
  cases q with
  | nil => rfl
  | cons c cs =>
    simp [muxMatch, bindings, longest]

theorem muxMatch_subtree (tpl : Templates) (p : Text) (h : InSubtree p) :
    ∃ fn, muxMatch (bindings tpl) p = some (makeHandler fn) := by
  rcases h with ⟨q, rfl⟩ | ⟨q, rfl⟩ | ⟨q, rfl⟩
  · exact ⟨_, muxMatch_view tpl q⟩
  · exact ⟨_, muxMatch_edit tpl q⟩
  · exact ⟨_, muxMatch_save tpl q⟩

theorem shouldRedirect_subtree (tpl : Templates) (p : Text) (h : InSubtree p) :
    shouldRedirect (bindings tpl) p = false := by
  rcases h with ⟨q, rfl⟩ | ⟨q, rfl⟩ | ⟨q, rfl⟩
  · have e : "/view/".toList ++ q = '/' :: 'v' :: 'i' :: 'e' :: 'w' :: '/' :: q := rfl
    rw [e]
    simp [shouldRedirect, bindings]
  · have e : "/edit/".toList ++ q = '/' :: 'e' :: 'd' :: 'i' :: 't' :: '/' :: q := rfl
    rw [e]
    simp [shouldRedirect, bindings]
  · have e : "/save/".toList ++ q = '/' :: 's' :: 'a' :: 'v' :: 'e' :: '/' :: q := rfl
    rw [e]
    simp [shouldRedirect, bindings]

theorem makeHandler_reject (fn : World → Request → Text → Outcome) (w : World) (r : Request)
    (h : findStringSubmatch validPath 2 r.path = none) :
    makeHandler fn w r = .returned ⟨w.fs, w.ops, w.calls ++ [.notFound]⟩ := by
  simp only [makeHandler, h]
  rfl

theorem bound_handler_reject (tpl : Templates) (w : World) (r : Request) (hd : Handler)
    (hb : ∃ b ∈ bindings tpl, b.2 = hd)
    (h : findStringSubmatch validPath 2 r.path = none) :
    hd w r = .returned ⟨w.fs, w.ops, w.calls ++ [.notFound]⟩ ∨
      hd w r = .returned ⟨w.fs, w.ops, w.calls ++ [.redirect "/view/FrontPage".toList 302]⟩ := by
  obtain ⟨b, hmem, rfl⟩ := hb
  simp only [bindings, List.mem_cons, List.mem_singleton, List.not_mem_nil, or_false] at hmem
  rcases hmem with rfl | rfl | rfl | rfl
  · exact Or.inr rfl
  · exact Or.inl (makeHandler_reject _ w r h)
  · exact Or.inl (makeHandler_reject _ w r h)
  · exact Or.inl (makeHandler_reject _ w r h)

theorem writeFile_calls (path data : Text) (w : World) :
    (writeFile path data w).2.calls = w.calls := by
  unfold writeFile
  by_cases hd : w.fs.dataDir = false
  · simp [hd]
  · cases hdeny : w.fs.denyWrite path with
    | some e => simp [hd]
    | none => simp [hd]

theorem save_calls (p : Page) (w : World) : (p.save w).2.calls = w.calls := by
  unfold Page.save
  simp only []
  rw [writeFile_calls]
  rfl

theorem readFile_world (path : Text) (w : World) :
    (readFile path w).2 = { w with ops := w.ops ++ [.readFile path] } := by
  unfold readFile
  by_cases hd : w.fs.dataDir = false
  · simp [hd]
  · cases hf : w.fs.files path with
    | some d => simp [hd]
    | none => simp [hd]

theorem loadPage_world (title : Text) (w : World) :
    (loadPage title w).2 =
      { w with ops := w.ops ++ [.readFile (pageDataRoot ++ (title ++ ".txt".toList))] } := by
  have h := readFile_world (pageDataRoot ++ (title ++ ".txt".toList)) w
  unfold loadPage
  simp only []
  cases hr : readFile (pageDataRoot ++ (title ++ ".txt".toList)) w with
  | mk res w0 =>
    rw [hr] at h
    cases res with
    | error e => exact h
    | ok b => exact h

theorem writeFile_cases (path data : Text) (w : World) :
    (∃ e, writeFile path data w =
      (some e, ⟨w.fs, w.ops ++ [.writeFile path data], w.calls⟩)) ∨
    writeFile path data w =
      (none, ⟨⟨w.fs.dataDir, w.fs.canMkdir, w.fs.denyWrite,
        fun q => if q = path then some data else w.fs.files q⟩,
        w.ops ++ [.writeFile path data], w.calls⟩) := by
  unfold writeFile
  by_cases hd : w.fs.dataDir = false
  · exact Or.inl ⟨⟨"open".toList, path, "no such file or directory".toList⟩, by simp [hd]⟩
  · cases hdeny : w.fs.denyWrite path with
    | some e => exact Or.inl ⟨⟨"open".toList, path, e⟩, by simp [hd]⟩
    | none => exact Or.inr (by simp [hd])

theorem save_eq (p : Page) (w : World) :
    p.save w = writeFile (pageDataRoot ++ (p.Title ++ ".txt".toList)) p.Body
      (osMkdir "data".toList w) := rfl

theorem osMkdir_frame (name : Text) (w : World) :
    (osMkdir name w).ops = w.ops ++ [.mkdir name] ∧ (osMkdir name w).calls = w.calls ∧
      (osMkdir name w).fs.files = w.fs.files := by
  unfold osMkdir
  refine ⟨rfl, rfl, ?_⟩
  simp only []
  split <;> rfl

theorem findLink_leftmost (t1 rest1 : Text) (hne : t1 ≠ [])
    (hall : t1.all (inClass alnum) = true) :
    ∀ (pre1 pre t r : Text),
      findLink (pre1 ++ '[' :: (t1 ++ ']' :: rest1)) = some (pre, t, r) →
        pre.length ≤ pre1.length := by
  intro pre1
  induction pre1 with
  | nil =>
    intro pre t r h
    rw [List.nil_append, findLink_cons, linkAt_token t1 rest1 hne hall] at h
    simp only [Option.some.injEq, Prod.mk.injEq] at h
    rw [← h.1]
  | cons c cs ih =>
    intro pre t r h
    rw [List.cons_append, findLink_cons] at h
    cases hl : linkAt (c :: (cs ++ '[' :: (t1 ++ ']' :: rest1))) with
    | some y =>
      rw [hl] at h
      simp only [Option.some.injEq, Prod.mk.injEq] at h
      rw [← h.1]
      simp
    | none =>
      rw [hl] at h
      simp only [Option.map_eq_some'] at h
      obtain ⟨⟨p1, t2, r2⟩, hf, he⟩ := h
      simp only [Prod.mk.injEq] at he
      rw [← he.1]
      have := ih p1 t2 r2 hf
      simp only [List.length_cons]
      omega

theorem shouldRedirect_iff (tpl : Templates) (p : Text) :
    shouldRedirect (bindings tpl) p = true ↔ NamesSubtree p := by
  have hv : "/view/".toList = "/view".toList ++ "/".toList := rfl
  have he : "/edit/".toList = "/edit".toList ++ "/".toList := rfl
  have hs : "/save/".toList = "/save".toList ++ "/".toList := rfl
  have hr : "/".toList = [] ++ "/".toList := rfl
  unfold NamesSubtree
  constructor
  · intro h
    simp only [shouldRedirect, bindings, List.any_cons, List.any_nil, Bool.or_false,
      Bool.and_eq_true, Bool.not_eq_true', Bool.or_eq_true, beq_iff_eq, decide_eq_true_eq,
      Bool.or_eq_false_iff, beq_eq_false_iff_ne] at h
    obtain ⟨⟨⟨-, hne⟩, hany⟩, -⟩ := h
    rcases hany with h1 | h1 | h1 | h1
    · rw [hr] at h1
      exact absurd (List.append_cancel_right h1).symm hne
    · rw [hv] at h1
      exact Or.inl (List.append_cancel_right h1).symm
    · rw [he] at h1
      exact Or.inr (Or.inl (List.append_cancel_right h1).symm)
    · rw [hs] at h1
      exact Or.inr (Or.inr (List.append_cancel_right h1).symm)
  · rintro (rfl | rfl | rfl) <;> rfl

theorem namesSubtree_not_inSubtree (p : Text) (h : NamesSubtree p) : ¬ InSubtree p := by
  rcases h with rfl | rfl | rfl <;>
  · rintro (⟨q, hq⟩ | ⟨q, hq⟩ | ⟨q, hq⟩) <;>
    · have := congrArg List.length hq
      simp at this

theorem muxMatch_root (tpl : Templates) (p : Text) (hform : p.head? = some '/')
    (hsub : ¬ InSubtree p) : muxMatch (bindings tpl) p = some rootHandler := by
  have hv : ("/view/".toList).isPrefixOf p = false := by
    rw [Bool.eq_false_iff]
    intro h
    exact hsub (Or.inl (List.isPrefixOf_iff_prefix.1 h))
  have he : ("/edit/".toList).isPrefixOf p = false := by
    rw [Bool.eq_false_iff]
    intro h
    exact hsub (Or.inr (Or.inl (List.isPrefixOf_iff_prefix.1 h)))
  have hs : ("/save/".toList).isPrefixOf p = false := by
    rw [Bool.eq_false_iff]
    intro h
    exact hsub (Or.inr (Or.inr (List.isPrefixOf_iff_prefix.1 h)))
  have hv2 : ("/view/".toList == p) = false := by
    rw [beq_eq_false_iff_ne]
    intro h
    exact hsub (Or.inl ⟨[], by rw [← h]; rfl⟩)
  have he2 : ("/edit/".toList == p) = false := by
    rw [beq_eq_false_iff_ne]
    intro h
    exact hsub (Or.inr (Or.inl ⟨[], by rw [← h]; rfl⟩))
  have hs2 : ("/save/".toList == p) = false := by
    rw [beq_eq_false_iff_ne]
    intro h
    exact hsub (Or.inr (Or.inr ⟨[], by rw [← h]; rfl⟩))
  have hr : ("/".toList).isPrefixOf p = true := by
    cases p with
    | nil => simp at hform
    | cons c cs =>
      simp only [List.head?_cons, Option.some.injEq] at hform
      subst hform
      have e : "/".toList = ['/'] := rfl
      rw [e]
      simp [List.isPrefixOf]
  unfold muxMatch bindings
  simp only [List.find?_cons, List.find?_nil, hv2, he2, hs2, List.filter_cons, List.filter_nil,
    hv, he, hs, hr, Bool.and_false, Bool.and_true]
  by_cases h0 : ("/".toList == p) = true
  · simp only [h0]
  · simp only [h0]
    rfl

theorem namesSubtree_not_inSubtree_foo : ¬ InSubtree "/foo".toList := by
  rintro (⟨q, hq⟩ | ⟨q, hq⟩ | ⟨q, hq⟩) <;>
  · have := congrArg List.length hq
    simp at this

/-! ## The claims -/

/-- C1 (route matching): the matcher of `makeHandler` and `getTitle` accepts a
path exactly when it is `/`, an action among view, edit and save, `/` and a
non-empty alphanumeric title; the submatches are then the path, the action and
that title, so the title handed on is that title, and it holds neither `/`
nor `.`. -/
theorem route_matching (p : Text) :
    (∀ m, findStringSubmatch validPath 2 p = some m ↔
      ∃ action title, IsRoute p action title ∧ m = [p, action, title]) ∧
    (findStringSubmatch validPath 2 p = none ↔ ¬ ∃ action title, IsRoute p action title) ∧
    (∀ action title, IsRoute p action title →
      (∀ w form, getTitle w ⟨p, form⟩ = (.ok title, w)) ∧
      (∀ fn w form, makeHandler fn w ⟨p, form⟩ = fn w ⟨p, form⟩ title) ∧
      '/' ∉ title ∧ '.' ∉ title) := by
  refine ⟨findStringSubmatch_iff_isRoute p, findStringSubmatch_none_iff p, ?_⟩
  intro action title hr
  have hm : findStringSubmatch validPath 2 p = some [p, action, title] :=
    (findStringSubmatch_iff_isRoute p _).2 ⟨action, title, hr, rfl⟩
  have hall : ∀ c ∈ title, c.isAlphanum = true := by
    have := hr.2.2.1
    rwa [List.all_eq_true] at this
  refine ⟨?_, ?_, ?_, ?_⟩
  · intro w form
    simp only [getTitle, hm]
    rfl
  · intro fn w form
    simp only [makeHandler, hm]
    rfl
  · intro h
    exact absurd (hall _ h) (by decide)
  · intro h
    exact absurd (hall _ h) (by decide)

/-- C1, at the path `/view/Foo9`: it is accepted with title `Foo9`. -/
theorem route_matching_witness :
    findStringSubmatch validPath 2 "/view/Foo9".toList =
      some ["/view/Foo9".toList, "view".toList, "Foo9".toList] ∧
    getTitle (World.fresh emptyFS) ⟨"/view/Foo9".toList, []⟩ =
      (.ok "Foo9".toList, World.fresh emptyFS) :=
  have hr : IsRoute "/view/Foo9".toList "view".toList "Foo9".toList :=
    ⟨by decide, by decide, by decide, by decide⟩
  ⟨((route_matching "/view/Foo9".toList).1 _).2 ⟨_, _, hr, rfl⟩,
    ((route_matching "/view/Foo9".toList).2.2 _ _ hr).1 _ _⟩

/-- C2 (save/load round trip): for a title that is non-empty and alphanumeric,
any body and any state in which the write of `save` succeeds, `loadPage` of
that title afterwards returns no error and the page with that title and exactly
that body. -/
theorem save_load_roundtrip (title body html : Text) (w : World)
    (_htitle : title ≠ [] ∧ title.all Char.isAlphanum = true)
    (hsave : (Page.save ⟨title, body, html⟩ w).1 = none) :
    (loadPage title (Page.save ⟨title, body, html⟩ w).2).1 =
      .ok { Title := title, Body := body, HTMLBody := [] } := by
  obtain ⟨hd, hf⟩ := save_ok ⟨title, body, html⟩ w hsave
  exact loadPage_of_file title body _ hd hf

/-- C2, at the title `Foo` and the body `hi [Bar]` on a file system without
the directory `data`: the save succeeds and the load returns the body. -/
theorem save_load_roundtrip_witness :
    (Page.save ⟨"Foo".toList, "hi [Bar]".toList, []⟩ (World.fresh emptyFS)).1 = none ∧
    (loadPage "Foo".toList
        (Page.save ⟨"Foo".toList, "hi [Bar]".toList, []⟩ (World.fresh emptyFS)).2).1 =
      .ok { Title := "Foo".toList, Body := "hi [Bar]".toList, HTMLBody := [] } :=
  ⟨rfl, save_load_roundtrip "Foo".toList "hi [Bar]".toList [] (World.fresh emptyFS)
    ⟨by decide, by decide⟩ rfl⟩

/-- C3 (link rewriting, one token at a time): when `pre` holds no `[` and `t`
is non-empty and alphanumeric, rewriting `pre ++ "[" ++ t ++ "]" ++ rest`
returns `pre`, the anchor for `t`, and the rewriting of `rest`. -/
theorem parseWiki_token (title html pre t rest : Text)
    (hpre : '[' ∉ pre) (hne : t ≠ []) (hall : t.all Char.isAlphanum = true) :
    ∃ out, parseWiki ⟨title, rest, html⟩ = some out ∧
      parseWiki ⟨title, pre ++ "[".toList ++ t ++ "]".toList ++ rest, html⟩ =
        some (pre ++ "<a href='/view/".toList ++ t ++ "'>".toList ++ t ++ "</a>".toList ++ out) := by
  rw [← all_alnum_iff] at hall
  refine ⟨rewriteN (rest.length + 1) rest, parseWiki_eq _, ?_⟩
  rw [parseWiki_eq]
  have e1 : "[".toList = ['['] := rfl
  have e2 : "]".toList = [']'] := rfl
  have hb : pre ++ "[".toList ++ t ++ "]".toList ++ rest = pre ++ '[' :: (t ++ ']' :: rest) := by
    simp [e1, e2]
  simp only [hb]
  have hf := findLink_token t rest hne hall pre hpre
  have hl := findLink_length _ _ _ _ hf
  rw [rewriteN_succ_some _ _ _ _ _ hf, rewriteN_stable _ (rest.length + 1) rest hl (by omega)]
  simp only [anchor, List.append_assoc]

/-- C3, the example of the specification: `See [FrontPage] and [Bar2]`. -/
theorem parseWiki_token_witness :
    parseWiki ⟨[], "See [FrontPage] and [Bar2]".toList, []⟩ =
      some "See <a href='/view/FrontPage'>FrontPage</a> and <a href='/view/Bar2'>Bar2</a>".toList := by
  obtain ⟨out, h1, h2⟩ := parseWiki_token [] [] "See ".toList "FrontPage".toList
    " and [Bar2]".toList (by decide) (by decide) (by decide)
  have h3 : parseWiki ⟨[], " and [Bar2]".toList, []⟩ =
      some " and <a href='/view/Bar2'>Bar2</a>".toList := by decide
  rw [h3] at h1
  cases h1
  exact h2

/-- C8 (identity on token-free input): a body that holds no token is returned
unchanged, so rewriting the result again returns it once more. -/
theorem parseWiki_identity (p : Page) (h : ¬ HasToken p.Body) :
    parseWiki p = some p.Body ∧
      ∀ out, parseWiki p = some out → parseWiki ⟨p.Title, out, p.HTMLBody⟩ = some out := by
  have h1 : parseWiki p = some p.Body := by
    rw [parseWiki_eq, rewriteN_of_none _ _ ((findLink_none_iff _).2 h)]
  refine ⟨h1, ?_⟩
  intro out hout
  rw [h1] at hout
  cases hout
  exact h1

/-- C8, at the body `a [] [b c] d[`: no token, returned as it is. -/
theorem parseWiki_identity_witness :
    ¬ HasToken "a [] [b c] d[".toList ∧
      parseWiki ⟨[], "a [] [b c] d[".toList, []⟩ = some "a [] [b c] d[".toList :=
  have h : ¬ HasToken "a [] [b c] d[".toList := (findLink_none_iff _).1 (by decide)
  ⟨h, (parseWiki_identity ⟨[], "a [] [b c] d[".toList, []⟩ h).1⟩

/-- C10 (idempotence on every input): rewriting returns a text that rewriting
leaves unchanged; `[[Foo]]` becomes `[<a href='/view/Foo'>Foo</a>]`, which is
rewritten to itself. -/
theorem parseWiki_idempotent :
    (∀ p : Page, ∃ out, parseWiki p = some out ∧
      parseWiki ⟨p.Title, out, p.HTMLBody⟩ = some out ∧ ¬ HasToken out) ∧
    parseWiki ⟨[], "[[Foo]]".toList, []⟩ = some "[<a href='/view/Foo'>Foo</a>]".toList ∧
    parseWiki ⟨[], "[<a href='/view/Foo'>Foo</a>]".toList, []⟩ =
      some "[<a href='/view/Foo'>Foo</a>]".toList := by
  refine ⟨?_, by decide, by decide⟩
  intro p
  have hn := findLink_rewriteN (p.Body.length + 1) p.Body (by omega)
  refine ⟨rewriteN (p.Body.length + 1) p.Body, parseWiki_eq p, ?_, (findLink_none_iff _).1 hn⟩
  rw [parseWiki_eq]
  exact congrArg some (rewriteN_of_none _ _ hn)

/-- C4 (viewing a missing page): when `loadPage` fails, `viewHandler` issues
the 302 redirect to `/edit/<title>` and then, having no `return`, goes on to
`renderTemplate` with a nil page, which panics on `p.Body`. -/
theorem viewHandler_missing_page (tpl : Templates) (w w1 : World) (r : Request)
    (title : Text) (err : PathError) (h : loadPage title w = (.error err, w1)) :
    viewHandler tpl w r title =
      .panicked ⟨w1.fs, w1.ops, w1.calls ++ [.redirect ("/edit/".toList ++ title) 302]⟩ := by
  simp only [viewHandler, h]
  rfl

/-- C4, at the title `Foo` with no page saved: the redirect is written and the
handler panics. -/
theorem viewHandler_missing_page_witness :
    viewHandler okTemplates (World.fresh emptyFS) ⟨"/view/Foo".toList, []⟩ "Foo".toList =
      .panicked ⟨emptyFS, [.readFile "data/Foo.txt".toList],
        [.redirect "/edit/Foo".toList 302]⟩ :=
  viewHandler_missing_page okTemplates (World.fresh emptyFS)
    ⟨emptyFS, [.readFile "data/Foo.txt".toList], []⟩ ⟨"/view/Foo".toList, []⟩ "Foo".toList
    ⟨"open".toList, "data/Foo.txt".toList, "no such file or directory".toList⟩ rfl

/-- C5 as stated fails at the path `/`: it does not match the pattern, and the
server answers with the 302 redirect of the root handler, not with 404,
whichever status code the mux uses for its own redirects. -/
theorem serve_root_not_404 :
    findStringSubmatch validPath 2 "/".toList = none ∧
    main okTemplates 301 (World.fresh emptyFS) ⟨"/".toList, []⟩ =
      .returned ⟨emptyFS, [], [.redirect "/view/FrontPage".toList 302]⟩ ∧
    main okTemplates 307 (World.fresh emptyFS) ⟨"/".toList, []⟩ =
      .returned ⟨emptyFS, [], [.redirect "/view/FrontPage".toList 302]⟩ ∧
    responseStatus [Call.redirect "/view/FrontPage".toList 302] = some 302 ∧
    responseStatus [Call.redirect "/view/FrontPage".toList 302] ≠ some 404 := by
  refine ⟨by decide, rfl, rfl, by decide, by decide⟩

/-- C5, amended: for a request path (beginning with `/`) that does not match
the pattern the server makes no file system call, leaves the files as they
are and writes one answer, which is
* 404 exactly when the path is clean and lies under `/view/`, `/edit/` or
  `/save/`;
* the 302 redirect to `/view/FrontPage` of the root handler when the path is
  clean, lies outside these subtrees and is none of `/view`, `/edit`, `/save`;
* the mux's own redirect, with the status code of the library, to the cleaned
  path with `/` added when the cleaned path is `/view`, `/edit` or `/save`, and
  to the cleaned path when the path is not clean. -/
theorem serve_unmatched (tpl : Templates) (muxCode : Nat) (fs : FS) (r : Request)
    (hform : r.path.head? = some '/')
    (h : findStringSubmatch validPath 2 r.path = none) :
    ∃ c, main tpl muxCode (World.fresh fs) r = .returned ⟨fs, [], [c]⟩ ∧
      (c = .notFound ↔ cleanPath r.path = r.path ∧ InSubtree r.path) ∧
      (cleanPath r.path = r.path → ¬ InSubtree r.path → ¬ NamesSubtree r.path →
        c = .redirect "/view/FrontPage".toList 302) ∧
      (NamesSubtree (cleanPath r.path) →
        c = .redirect (cleanPath r.path ++ "/".toList) muxCode) ∧
      (cleanPath r.path ≠ r.path → ¬ NamesSubtree (cleanPath r.path) →
        c = .redirect (cleanPath r.path) muxCode) := by
  unfold main muxServe
  simp only []
  by_cases hs : shouldRedirect (bindings tpl) (cleanPath r.path) = true
  · have hn : NamesSubtree (cleanPath r.path) := (shouldRedirect_iff tpl _).1 hs
    rw [if_pos hs]
    refine ⟨_, rfl, ?_, ?_, fun _ => rfl, fun _ hnn => absurd hn hnn⟩
    · constructor
      · intro hc
        exact Call.noConfusion hc
      · rintro ⟨hc, hsub⟩
        rw [hc] at hn
        exact absurd hsub (namesSubtree_not_inSubtree _ hn)
    · intro hc _ hnn
      rw [hc] at hn
      exact absurd hn hnn
  · have hn : ¬ NamesSubtree (cleanPath r.path) := fun hn => hs ((shouldRedirect_iff tpl _).2 hn)
    rw [if_neg hs]
    by_cases hc : cleanPath r.path = r.path
    · rw [if_neg (by simpa using hc)]
      by_cases hsub : InSubtree r.path
      · obtain ⟨fn, hfn⟩ := muxMatch_subtree tpl _ hsub
        rw [hfn]
        refine ⟨.notFound, makeHandler_reject fn _ r h, ?_, ?_, fun hn2 => absurd hn2 hn,
          fun hc2 => absurd hc hc2⟩
        · exact ⟨fun _ => ⟨hc, hsub⟩, fun _ => rfl⟩
        · intro _ hns
          exact absurd hsub hns
      · rw [muxMatch_root tpl _ hform hsub]
        refine ⟨_, rfl, ?_, fun _ _ _ => rfl, fun hn2 => absurd hn2 hn,
          fun hc2 => absurd hc hc2⟩
        constructor
        · intro hc2
          exact Call.noConfusion hc2
        · rintro ⟨-, hsub2⟩
          exact absurd hsub2 hsub
    · rw [if_pos hc]
      refine ⟨_, rfl, ?_, fun hc2 => absurd hc2 hc, fun hn2 => absurd hn2 hn, fun _ _ => rfl⟩
      constructor
      · intro hc2
        exact Call.noConfusion hc2
      · rintro ⟨hc2, -⟩
        exact absurd hc2 hc

/-- C5 amended, at four paths that do not match: `/view/a.b` gets 404, `/foo`
the 302 of the root handler, and `/view` and `/view//Foo` the redirect of the
mux; none causes a file system call. -/
theorem serve_unmatched_witness :
    main okTemplates 307 (World.fresh emptyFS) ⟨"/view/a.b".toList, []⟩ =
      .returned ⟨emptyFS, [], [.notFound]⟩ ∧
    main okTemplates 307 (World.fresh emptyFS) ⟨"/foo".toList, []⟩ =
      .returned ⟨emptyFS, [], [.redirect "/view/FrontPage".toList 302]⟩ ∧
    main okTemplates 307 (World.fresh emptyFS) ⟨"/view".toList, []⟩ =
      .returned ⟨emptyFS, [], [.redirect "/view/".toList 307]⟩ ∧
    main okTemplates 307 (World.fresh emptyFS) ⟨"/view//Foo".toList, []⟩ =
      .returned ⟨emptyFS, [], [.redirect "/view/Foo".toList 307]⟩ := by
  obtain ⟨c1, h1, a1, -, -, -⟩ :=
    serve_unmatched okTemplates 307 emptyFS ⟨"/view/a.b".toList, []⟩ rfl (by decide)
  obtain ⟨c2, h2, -, b2, -, -⟩ :=
    serve_unmatched okTemplates 307 emptyFS ⟨"/foo".toList, []⟩ rfl (by decide)
  obtain ⟨c3, h3, -, -, d3, -⟩ :=
    serve_unmatched okTemplates 307 emptyFS ⟨"/view".toList, []⟩ rfl (by decide)
  obtain ⟨c4, h4, -, -, -, e4⟩ :=
    serve_unmatched okTemplates 307 emptyFS ⟨"/view//Foo".toList, []⟩ rfl (by decide)
  have hc1 : c1 = .notFound := a1.2 ⟨by decide, Or.inl ⟨"a.b".toList, rfl⟩⟩
  have hc2 : c2 = .redirect "/view/FrontPage".toList 302 :=
    b2 (by decide) (namesSubtree_not_inSubtree_foo) (by unfold NamesSubtree; decide)
  have hc3 : c3 = .redirect "/view/".toList 307 := d3 (Or.inl (by decide))
  have hc4 : c4 = .redirect "/view/Foo".toList 307 :=
    e4 (by decide) (by unfold NamesSubtree; decide)
  rw [hc1] at h1
  rw [hc2] at h2
  rw [hc3] at h3
  rw [hc4] at h4
  exact ⟨h1, h2, h3, h4⟩

/-- C6 (wrapped handler): on a path the pattern rejects, the handler made by
`makeHandler fn` answers 404 whatever `fn` is, without running it and without
touching the file system; on a path the pattern accepts, it is exactly one
run of `fn` on the unchanged state with the title of the route. -/
theorem makeHandler_dispatch (fn : World → Request → Text → Outcome) (w : World)
    (r : Request) :
    (findStringSubmatch validPath 2 r.path = none →
      makeHandler fn w r = .returned ⟨w.fs, w.ops, w.calls ++ [.notFound]⟩ ∧
      Call.status .notFound = some 404 ∧
      ∀ fn2, makeHandler fn2 w r = makeHandler fn w r) ∧
    (∀ m, findStringSubmatch validPath 2 r.path = some m →
      ∃ action title, IsRoute r.path action title ∧ m = [r.path, action, title] ∧
        makeHandler fn w r = fn w r title) := by
  constructor
  · intro h
    refine ⟨makeHandler_reject fn w r h, rfl, ?_⟩
    intro fn2
    rw [makeHandler_reject fn w r h, makeHandler_reject fn2 w r h]
  · intro m hm
    obtain ⟨action, title, hr, rfl⟩ := (findStringSubmatch_iff_isRoute r.path m).1 hm
    refine ⟨action, title, hr, rfl, ?_⟩
    simp only [makeHandler, hm]
    rfl

/-- C6, at the rejected path `/view/a.b` and the accepted path `/save/Foo`
with `saveHandler` wrapped. -/
theorem makeHandler_dispatch_witness :
    makeHandler saveHandler (World.fresh emptyFS) ⟨"/view/a.b".toList, []⟩ =
      .returned ⟨emptyFS, [], [.notFound]⟩ ∧
    ∃ action title, IsRoute "/save/Foo".toList action title ∧
      ["/save/Foo".toList, "save".toList, "Foo".toList] = ["/save/Foo".toList, action, title] ∧
      makeHandler saveHandler (World.fresh emptyFS) ⟨"/save/Foo".toList, []⟩ =
        saveHandler (World.fresh emptyFS) ⟨"/save/Foo".toList, []⟩ title :=
  ⟨((makeHandler_dispatch saveHandler (World.fresh emptyFS) ⟨"/view/a.b".toList, []⟩).1
      (by decide)).1,
    (makeHandler_dispatch saveHandler (World.fresh emptyFS) ⟨"/save/Foo".toList, []⟩).2 _
      (by decide)⟩

/-- C7 (save handler): `saveHandler` saves the page made of the title and the
form value `body`. When `save` returns an error the response is the one call
`http.Error` with the error's text and status 500, and no redirect; when it
succeeds the response is the one 302 redirect to `/view/<title>`, and the
content stored for the title is the submitted body. -/
theorem saveHandler_outcomes (fs : FS) (r : Request) (title : Text)
    (_htitle : title ≠ [] ∧ title.all Char.isAlphanum = true) :
    (∀ err w1, Page.save ⟨title, r.FormValue "body".toList, []⟩ (World.fresh fs) = (some err, w1) →
      ∃ w2, saveHandler (World.fresh fs) r title = .returned w2 ∧
        w2.calls = [.error err.Error 500] ∧ responseStatus w2.calls = some 500 ∧
        w2.fs = w1.fs ∧ w2.ops = w1.ops) ∧
    (∀ w1, Page.save ⟨title, r.FormValue "body".toList, []⟩ (World.fresh fs) = (none, w1) →
      ∃ w2, saveHandler (World.fresh fs) r title = .returned w2 ∧
        w2.calls = [.redirect ("/view/".toList ++ title) 302] ∧
        responseStatus w2.calls = some 302 ∧
        w2.fs = w1.fs ∧ w2.ops = w1.ops ∧
        w2.fs.files (pageDataRoot ++ (title ++ ".txt".toList)) = some (r.FormValue "body".toList) ∧
        (loadPage title w2).1 =
          .ok { Title := title, Body := r.FormValue "body".toList, HTMLBody := [] }) := by
  have hcalls : ∀ p : Page, (p.save (World.fresh fs)).2.calls = [] := fun p =>
    save_calls p (World.fresh fs)
  constructor
  · intro err w1 hsave
    have hc := hcalls ⟨title, r.FormValue "body".toList, []⟩
    rw [hsave] at hc
    simp only at hc
    refine ⟨httpError err.Error StatusInternalServerError w1, ?_, ?_, ?_, rfl, rfl⟩
    · simp only [saveHandler, hsave]
    · simp only [httpError, hc]; rfl
    · simp only [httpError, hc]; rfl
  · intro w1 hsave
    have hc := hcalls ⟨title, r.FormValue "body".toList, []⟩
    have hok := save_ok ⟨title, r.FormValue "body".toList, []⟩ (World.fresh fs)
      (by rw [hsave])
    rw [hsave] at hc hok
    simp only at hc hok
    refine ⟨httpRedirect ("/view/".toList ++ title) StatusFound w1, ?_, ?_, ?_, rfl, rfl,
      hok.2, ?_⟩
    · simp only [saveHandler, hsave]
    · simp only [httpRedirect, hc]; rfl
    · simp only [httpRedirect, hc]; rfl
    · exact loadPage_of_file title _ _ hok.1 hok.2

/-- C7, at the title `Foo` and the form body `hi`: on a file system where
`data` cannot be created the answer is the 500 with the error text, and on one
where it can the answer is the redirect to `/view/Foo`. -/
theorem saveHandler_outcomes_witness :
    (∃ w2, saveHandler (World.fresh lockedFS) ⟨"/save/Foo".toList, [("body".toList, "hi".toList)]⟩
        "Foo".toList = .returned w2 ∧
      w2.calls = [.error "open data/Foo.txt: no such file or directory".toList 500] ∧
      responseStatus w2.calls = some 500 ∧ w2.fs = lockedFS ∧
      w2.ops = [.mkdir "data".toList, .writeFile "data/Foo.txt".toList "hi".toList]) ∧
    (∃ w2, saveHandler (World.fresh emptyFS) ⟨"/save/Foo".toList, [("body".toList, "hi".toList)]⟩
        "Foo".toList = .returned w2 ∧
      w2.calls = [.redirect "/view/Foo".toList 302] ∧
      responseStatus w2.calls = some 302 ∧
      w2.fs = (Page.save ⟨"Foo".toList, "hi".toList, []⟩ (World.fresh emptyFS)).2.fs ∧
      w2.ops = [.mkdir "data".toList, .writeFile "data/Foo.txt".toList "hi".toList] ∧
      w2.fs.files "data/Foo.txt".toList = some "hi".toList ∧
      (loadPage "Foo".toList w2).1 =
        .ok { Title := "Foo".toList, Body := "hi".toList, HTMLBody := [] }) :=
  ⟨(saveHandler_outcomes lockedFS ⟨"/save/Foo".toList, [("body".toList, "hi".toList)]⟩
      "Foo".toList ⟨by decide, by decide⟩).1
      ⟨"open".toList, "data/Foo.txt".toList, "no such file or directory".toList⟩ _ rfl,
    (saveHandler_outcomes emptyFS ⟨"/save/Foo".toList, [("body".toList, "hi".toList)]⟩
      "Foo".toList ⟨by decide, by decide⟩).2 _ rfl⟩

/-- C9 (rendering contract): for a non-nil page, `renderTemplate` returns with
the files untouched and passes to `ExecuteTemplate`, for the name `edit`, the
page as it is, and for any other name the page with the same title and body
and with `HTMLBody` set to the rewriting of the body. `editHandler` passes the
page as loaded, or the empty page when there is none, to the `edit`
template. -/
theorem renderTemplate_data (tpl : Templates) (w : World) (tmpl : Text) (p : Page) :
    (∃ html w1 rest, parseWiki p = some html ∧
      renderTemplate tpl w tmpl (some p) = .returned w1 ∧
      w1.fs = w.fs ∧ w1.ops = w.ops ∧
      w1.calls = w.calls ++
        .executeTemplate (tmpl ++ ".html".toList)
          (some (if tmpl = "edit".toList then p
            else { Title := p.Title, Body := p.Body, HTMLBody := html })) :: rest) ∧
    (∀ r title, ∃ w1 rest, editHandler tpl w r title = .returned w1 ∧
      w1.calls = w.calls ++
        .executeTemplate "edit.html".toList
          (some (match (loadPage title w).1 with
            | .ok q => q
            | .error _ => { Title := title, Body := [], HTMLBody := [] })) :: rest) := by
  have hedit : ∀ (w0 : World) (q : Page), ∃ w1 rest,
      renderTemplate tpl w0 "edit".toList (some q) = .returned w1 ∧
      w1.fs = w0.fs ∧ w1.ops = w0.ops ∧
      w1.calls = w0.calls ++ .executeTemplate "edit.html".toList (some q) :: rest := by
    intro w0 q
    have e : "edit".toList ++ ".html".toList = "edit.html".toList := rfl
    simp only [renderTemplate, ne_eq, not_true_eq_false, if_false, e]
    cases tpl "edit.html".toList (some q) with
    | none => exact ⟨_, [], rfl, rfl, rfl, rfl⟩
    | some err =>
      exact ⟨_, [.error err StatusInternalServerError], rfl, rfl, rfl, by simp [httpError]⟩
  constructor
  · refine ⟨rewriteN (p.Body.length + 1) p.Body, ?_⟩
    by_cases ht : tmpl = "edit".toList
    · subst ht
      obtain ⟨w1, rest, h1, h2, h3, h4⟩ := hedit w p
      exact ⟨w1, rest, parseWiki_eq p, h1, h2, h3, by simpa using h4⟩
    · simp only [renderTemplate, ne_eq, ht, not_false_eq_true, if_true, if_false, parseWiki_eq p]
      cases tpl (tmpl ++ ".html".toList)
          (some ⟨p.Title, p.Body, rewriteN (p.Body.length + 1) p.Body⟩) with
      | none => exact ⟨_, [], trivial, rfl, rfl, rfl, rfl⟩
      | some err =>
        exact ⟨_, [.error err StatusInternalServerError], trivial, rfl, rfl, rfl,
          by simp [httpError]⟩
  · intro r title
    unfold editHandler
    cases hl : loadPage title w with
    | mk res w0 =>
      have hc : w0.calls = w.calls := by
        have := loadPage_world title w
        rw [hl] at this
        simp only at this
        rw [this]
      cases res with
      | error err =>
        obtain ⟨w1, rest, h1, -, -, h4⟩ := hedit w0 ⟨title, [], []⟩
        exact ⟨w1, rest, h1, by rw [h4, hc]⟩
      | ok q =>
        obtain ⟨w1, rest, h1, -, -, h4⟩ := hedit w0 q
        exact ⟨w1, rest, h1, by rw [h4, hc]⟩

/-- C9, at the page `Foo` with body `see [Bar]` and the template `view`. -/
theorem renderTemplate_data_witness :
    ∃ w1 rest, renderTemplate okTemplates (World.fresh emptyFS) "view".toList
        (some ⟨"Foo".toList, "see [Bar]".toList, []⟩) = .returned w1 ∧
      w1.calls = [] ++
        .executeTemplate "view.html".toList
          (some ⟨"Foo".toList, "see [Bar]".toList,
            "see <a href='/view/Bar'>Bar</a>".toList⟩) :: rest := by
  obtain ⟨html, w1, rest, h1, h2, -, -, h3⟩ :=
    (renderTemplate_data okTemplates (World.fresh emptyFS) "view".toList
      ⟨"Foo".toList, "see [Bar]".toList, []⟩).1
  have h4 : parseWiki ⟨"Foo".toList, "see [Bar]".toList, []⟩ =
      some "see <a href='/view/Bar'>Bar</a>".toList := by decide
  rw [h4] at h1
  cases h1
  exact ⟨w1, rest, h2, h3⟩

/-! ## Further properties of the program -/

/-- The root handler answers every request with the 302 redirect to
`/view/FrontPage` and touches nothing else. -/
theorem rootHandler_redirects (w : World) (r : Request) :
    rootHandler w r =
      .returned ⟨w.fs, w.ops, w.calls ++ [.redirect "/view/FrontPage".toList 302]⟩ ∧
    responseStatus [Call.redirect "/view/FrontPage".toList 302] = some 302 :=
  ⟨rfl, rfl⟩

/-- Editing a page that cannot be loaded: `editHandler` returns without a
panic and without a redirect, and the `edit` template gets the blank page
that has only the title. -/
theorem editHandler_missing_page (tpl : Templates) (w w1 : World) (r : Request)
    (title : Text) (err : PathError) (h : loadPage title w = (.error err, w1)) :
    ∃ w2 rest, editHandler tpl w r title = .returned w2 ∧
      w2.fs = w.fs ∧
      w2.calls = w.calls ++
        .executeTemplate "edit.html".toList (some ⟨title, [], []⟩) :: rest ∧
      (rest = [] ∨ ∃ msg, rest = [.error msg 500]) := by
  have hw := loadPage_world title w
  rw [h] at hw
  simp only at hw
  have e : "edit".toList ++ ".html".toList = "edit.html".toList := rfl
  simp only [editHandler, h, renderTemplate, ne_eq, not_true_eq_false, if_false, e]
  cases tpl "edit.html".toList (some ⟨title, [], []⟩) with
  | none => exact ⟨_, [], rfl, by rw [hw], by rw [hw], Or.inl rfl⟩
  | some msg =>
    refine ⟨_, [.error msg 500], rfl, by rw [hw]; rfl, ?_, Or.inr ⟨msg, rfl⟩⟩
    rw [hw]
    simp [httpError, StatusInternalServerError]

/-- Editing the page `Foo` when nothing is stored. -/
theorem editHandler_missing_page_witness :
    ∃ w2 rest, editHandler okTemplates (World.fresh emptyFS) ⟨"/edit/Foo".toList, []⟩
        "Foo".toList = .returned w2 ∧
      w2.fs = (World.fresh emptyFS).fs ∧
      w2.calls = (World.fresh emptyFS).calls ++
        .executeTemplate "edit.html".toList (some ⟨"Foo".toList, [], []⟩) :: rest ∧
      (rest = [] ∨ ∃ msg, rest = [.error msg 500]) :=
  editHandler_missing_page okTemplates (World.fresh emptyFS)
    ⟨emptyFS, [.readFile "data/Foo.txt".toList], []⟩ ⟨"/edit/Foo".toList, []⟩ "Foo".toList
    ⟨"open".toList, "data/Foo.txt".toList, "no such file or directory".toList⟩ rfl

/-- Viewing after a successful save: `viewHandler` returns without a panic and
without a redirect, and the `view` template gets the saved body together with
its rewriting. This holds in particular for the empty body. -/
theorem view_after_save (tpl : Templates) (w : World) (r : Request) (title body html0 : Text)
    (hsave : (Page.save ⟨title, body, html0⟩ w).1 = none) :
    ∃ html w2 rest, parseWiki ⟨title, body, []⟩ = some html ∧
      viewHandler tpl (World.fresh (Page.save ⟨title, body, html0⟩ w).2.fs) r title =
        .returned w2 ∧
      w2.calls = .executeTemplate "view.html".toList (some ⟨title, body, html⟩) :: rest ∧
      (rest = [] ∨ ∃ msg, rest = [.error msg 500]) := by
  obtain ⟨hd, hf⟩ := save_ok ⟨title, body, html0⟩ w hsave
  have hr := readFile_of_file _ _ (World.fresh (Page.save ⟨title, body, html0⟩ w).2.fs) hd hf
  have e : "view".toList ++ ".html".toList = "view.html".toList := rfl
  have hne : ¬ ("view".toList = "edit".toList) := by decide
  refine ⟨rewriteN (body.length + 1) body, ?_⟩
  have hp : parseWiki ⟨title, body, []⟩ = some (rewriteN (body.length + 1) body) :=
    parseWiki_eq _
  simp only [viewHandler, loadPage]
  simp only [] at hr
  rw [hr]
  simp only [renderTemplate, ne_eq, hne, not_false_eq_true, if_true, hp, e]
  cases tpl "view.html".toList (some ⟨title, body, rewriteN (body.length + 1) body⟩) with
  | none => exact ⟨_, [], trivial, rfl, rfl, Or.inl rfl⟩
  | some msg =>
    exact ⟨_, [.error msg 500], trivial, rfl,
      by simp [httpError, World.fresh, StatusInternalServerError], Or.inr ⟨msg, rfl⟩⟩

/-- Saving the empty body under `Foo` and viewing it: the page is rendered,
with no redirect to the editor. -/
theorem view_after_save_witness :
    ∃ w2, viewHandler okTemplates
        (World.fresh (Page.save ⟨"Foo".toList, [], []⟩ (World.fresh emptyFS)).2.fs)
        ⟨"/view/Foo".toList, []⟩ "Foo".toList = .returned w2 ∧
      w2.calls = [.executeTemplate "view.html".toList (some ⟨"Foo".toList, [], []⟩)] := by
  obtain ⟨html, w2, rest, h1, h2, -, -⟩ :=
    view_after_save okTemplates (World.fresh emptyFS) ⟨"/view/Foo".toList, []⟩ "Foo".toList []
      [] rfl
  exact ⟨_, rfl, rfl⟩

/-- What `save` does to the file system: it calls `os.Mkdir("data")` and then
`WriteFile` on `data/<title>.txt`, whether or not the directory exists; when
the write succeeds the file holds exactly the body (whatever it held before)
and every other file is as it was, and when it fails no file has changed. -/
theorem save_effect (p : Page) (w : World) :
    (p.save w).2.ops = w.ops ++
      [.mkdir "data".toList, .writeFile ("data/".toList ++ (p.Title ++ ".txt".toList)) p.Body] ∧
    (p.save w).2.calls = w.calls ∧
    (∀ q, (p.save w).2.fs.files q =
      if (p.save w).1 = none ∧ q = "data/".toList ++ (p.Title ++ ".txt".toList) then some p.Body
      else w.fs.files q) := by
  obtain ⟨ho, -, hfiles⟩ := osMkdir_frame "data".toList w
  have hpath : "data/".toList ++ (p.Title ++ ".txt".toList) =
      pageDataRoot ++ (p.Title ++ ".txt".toList) := rfl
  rw [hpath]
  refine ⟨?_, save_calls p w, ?_⟩
  · rcases writeFile_cases (pageDataRoot ++ (p.Title ++ ".txt".toList)) p.Body
      (osMkdir "data".toList w) with ⟨e, h⟩ | h
    · rw [save_eq, h]
      simp only [ho, List.append_assoc, List.singleton_append]
    · rw [save_eq, h]
      simp only [ho, List.append_assoc, List.singleton_append]
  · intro q
    rcases writeFile_cases (pageDataRoot ++ (p.Title ++ ".txt".toList)) p.Body
      (osMkdir "data".toList w) with ⟨e, h⟩ | h
    · rw [save_eq, h]
      simp only [hfiles, reduceCtorEq, false_and, if_false]
    · rw [save_eq, h]
      simp only [hfiles, true_and]

/-- The search for `linksPattern` finds nothing exactly in the texts that hold
no token, and otherwise finds the leftmost token of the text: the match is
`[`, a non-empty run of alphanumerics and `]`, and no token of the text starts
in front of it. -/
theorem search_linksPattern_spec (s : Text) :
    (search linksPattern 0 s = none ↔ ¬ HasToken s) ∧
    (∀ start st, search linksPattern 0 s = some (start, st) →
      ∃ t, t ≠ [] ∧ t.all Char.isAlphanum = true ∧
        s = s.take start ++ "[".toList ++ t ++ "]".toList ++ st.rest ∧
        st.pos = start + t.length + 2 ∧
        ∀ pre1 t1 rest1, t1 ≠ [] → t1.all Char.isAlphanum = true →
          s = pre1 ++ "[".toList ++ t1 ++ "]".toList ++ rest1 → start ≤ pre1.length) := by
  have e1 : "[".toList = ['['] := rfl
  have e2 : "]".toList = [']'] := rfl
  rw [search_linksPattern]
  constructor
  · rw [← findLink_none_iff]
    cases findLink s <;> simp
  · intro start st h
    simp only [Option.map_eq_some'] at h
    obtain ⟨⟨pre, t, r⟩, hf, he⟩ := h
    simp only [Prod.mk.injEq, Nat.zero_add] at he
    obtain ⟨rfl, rfl⟩ := he
    obtain ⟨hs, hne, hall⟩ := findLink_some s pre t r hf
    refine ⟨t, hne, by rwa [← all_alnum_iff], ?_, by simp only []; omega, ?_⟩
    · have htake : s.take pre.length = pre := by rw [hs]; simp
      rw [htake, e1, e2]
      simpa using hs
    · intro pre1 t1 rest1 hne1 hall1 hs1
      rw [← all_alnum_iff] at hall1
      have hs2 : s = pre1 ++ '[' :: (t1 ++ ']' :: rest1) := by
        rw [hs1, e1, e2]; simp
      rw [hs2] at hf
      exact findLink_leftmost t1 rest1 hne1 hall1 pre1 pre t r hf

end GoWiki
